/-
Verification of the header-inference core of har2requests.

The Python sources are shallowly embedded:
  * strings are lists of natural numbers (Unicode code points); `chr(0)`
    is the code point `0`;
  * Python exceptions (`ValueError` from `max()` on an empty sequence)
    are modelled by `Option`, with `none` for a raised error;
  * Python float comparisons of the form `x / y > 0.5` on nonnegative
    integers `x`, `y` are modelled exactly as `2 * x > y`
    (resp. `<` as `2 * x < y`);
  * the `while` loop of `suffix_array` is run on explicit fuel
    (`length + 1` rounds, proved sufficient below); the `while` loop of
    `kasai` that extends a match is expressed with `lcpLen`, the length
    of the longest common prefix, which is exactly what the loop adds.
-/
import Mathlib

set_option maxHeartbeats 4000000
set_option maxRecDepth 100000

/-! ## Lexicographic order on code-point lists (Python string/list comparison) -/

/-- Python `<=` on lists/strings: lexicographic, shorter prefix first. -/
def lexLe : List Nat → List Nat → Bool
  | [], _ => true
  | _ :: _, [] => false
  | a :: as, b :: bs => if a < b then true else if b < a then false else lexLe as bs

/-- Python `<` on lists/strings: strict lexicographic order. -/
def lexLt : List Nat → List Nat → Bool
  | [], [] => false
  | [], _ :: _ => true
  | _ :: _, [] => false
  | a :: as, b :: bs => if a < b then true else if b < a then false else lexLt as bs

/-- Length of the longest common prefix of two lists. -/
def lcpLen : List Nat → List Nat → Nat
  | a :: as, b :: bs => if a = b then lcpLen as bs + 1 else 0
  | _, _ => 0

/-! ## stringalg.py -/

/-- `to_int_keys(l)`: collect the distinct elements, sort them, and map every
element of `l` to its index in that sorted list of distinct keys. -/
def to_int_keys (l : List Nat) : List Nat :=
  let ls := List.insertionSort (· ≤ ·) l.dedup
  l.map fun v => ls.indexOf v

/-- One doubling round of `suffix_array`: the Python keys
`a * (n+1) + b + 1` over `zip_longest(line, islice(line, k, None), fillvalue=-1)`,
written with the `+ 1` shift folded in so the key is a natural number
(a missing pair member `-1` becomes `0`, a present rank `b` becomes `b + 1`). -/
def doubleKeys (n k : Nat) (line : List Nat) : List Nat :=
  line.zipWith (fun a b => a * (n + 1) + b)
    ((line.drop k).map (· + 1) ++ List.replicate (min k line.length) 0)

/-- The `while max(line) < n - 1` loop of `suffix_array`, on explicit fuel.
`max` of an empty list is a `ValueError`, hence `none`. -/
def saLoop (n : Nat) : Nat → Nat → List Nat → Option (List Nat)
  | 0, _, _ => none
  | fuel + 1, k, line =>
    match line.max? with
    | none => none
    | some m =>
      if m < n - 1 then saLoop n fuel (2 * k) (to_int_keys (doubleKeys n k line))
      else some line

/-- `suffix_array(s)` from stringalg.py.  Despite its name it returns the
rank array of `s` (see the theorems below).  Fuel `length + 1` is enough:
after `m` rounds the stride is `2 ^ m`, and ranks are fully distinct as
soon as the stride reaches `length`. -/
def suffix_array (s : List Nat) : Option (List Nat) :=
  saLoop s.length (s.length + 1) 1 (to_int_keys s)

/-- `inverse_array(l)`: start from `[0] * n` and set `ans[l[i]] = i` for each
`i` in order.  (`List.set` ignores out-of-range indices; every caller in the
repository passes a list with values `< n`, as proved below.) -/
def inverse_array (l : List Nat) : List Nat :=
  l.enum.foldl (fun ans iv => ans.set iv.2 iv.1) (List.replicate l.length 0)

/-- The inner `while` loop of `kasai`: starting from an already-matched
length `k`, extend while `i + k < n` and `j + k < n` and `s[i+k] = s[j+k]`.
This adds exactly the longest common prefix length of the two suffixes
shifted by `k`. -/
def lcpExtend (s : List Nat) (i j k : Nat) : Nat :=
  k + lcpLen (s.drop (i + k)) (s.drop (j + k))

/-- One iteration of the `for i in range(n)` loop of `kasai`, acting on the
state `(k, lcp)`. -/
def kasaiStep (s : List Nat) (sa pos : List Nat) (n : Nat)
    (st : Nat × List Nat) (i : Nat) : Nat × List Nat :=
  if sa.getD i 0 = n - 1 then (0, st.2)
  else
    let j := pos.getD (sa.getD i 0 + 1) 0
    let k := lcpExtend s i j st.1
    (if k ≠ 0 then k - 1 else k, st.2.set (sa.getD i 0) k)

/-- `kasai(s, sa)` with an explicitly supplied (rank) array `sa`. -/
def kasai (s sa : List Nat) : List Nat :=
  let n := s.length
  let pos := inverse_array sa
  ((List.range n).foldl (kasaiStep s sa pos n) (0, List.replicate n 0)).2

/-- `kasai(s)` with the default `sa=None`, which first runs `suffix_array`. -/
def kasaiDefault (s : List Nat) : Option (List Nat) :=
  (suffix_array s).map (kasai s)

/-- `longest_common_substring(a, b)`: build `a + chr(0) + b`, compute the
rank array, its inverse and the lcp array, and take the `max` over the lcp
entries at adjacent positions whose suffixes come from opposite sides of
the separator.  `max` of an empty collection raises, hence `none`. -/
def longest_common_substring (a b : List Nat) : Option Nat :=
  let s := a ++ [0] ++ b
  match suffix_array s with
  | none => none
  | some sa =>
    let pos := inverse_array sa
    let lcp := kasai s sa
    (((List.range (s.length - 1)).filter fun i =>
        (decide (pos.getD i 0 < a.length)) != (decide (pos.getD (i + 1) 0 < a.length))).map
      fun i => lcp.getD i 0).max?

example : to_int_keys [2, 0, 1] = [2, 0, 1] := by decide
example : suffix_array [2, 0, 1] = some [2, 0, 1] := by decide
example : suffix_array [] = none := by decide
example : suffix_array [7] = some [0] := by decide
example : longest_common_substring [1] [] = some 0 := by decide
example : longest_common_substring [] [1] = none := by decide
example : longest_common_substring [0] [0] = some 2 := by decide
example : longest_common_substring [1] [1, 0, 1] = some 3 := by decide
example : longest_common_substring [1, 0, 1] [1] = some 2 := by decide
example : longest_common_substring [1, 2, 3] [2, 3, 4] = some 2 := by decide

/-! ## `__init__.py`: constants and `match`

Header keys are Lean `String`s; header values and response texts are
code-point lists, like the stringalg inputs they are compared with. -/

def RESPONSE_LOOKUP : Nat := 5
def MAX_SIZE : Nat := 100000
def SIZE_THRESHOLD : Nat := 16

/-- `_match_wrapped(header, text)`, without its `lru_cache` decorator (the
cached variant is `matchWrappedCached` below).  The float test
`match_size / len(header) > 0.5` is the exact integer test
`2 * match_size > len(header)`.  Every caller guarantees both operands
nonempty, in which case `longest_common_substring` never fails
(`longest_common_substring_isSome` below), so the `getD` default is dead. -/
def matchWrapped (header text : List Nat) : Bool :=
  2 * ((longest_common_substring header text).getD 0) > header.length

/-- `match(header, text)` (renamed: `match` is a Lean keyword).  The float
test `len(text) / len(header) < 0.5` is the exact `2 * len(text) < len(header)`. -/
def matchHeader (header text : List Nat) : Bool :=
  if header.length < SIZE_THRESHOLD then false
  else if 2 * text.length < header.length then false
  else if text = [] then false
  else matchWrapped header text

/-! ## `infer_headers_origin` -/

structure Request where
  headers : List (String × List Nat)
  responseText : List Nat

/-- Python's minted name `f"{base_name}_{i}"` is modelled as the pair
`(base_name, i)`; the pair is in bijection with the generated string
(the decimal index is whatever follows the final underscore). -/
structure OriginState where
  variables_to_bind : List (List ((String × Nat) × List Nat))
  header_to_variable : List (List Nat × (String × Nat))
  variable_names : List (String × Nat)
  tried_headers : List (List Nat)
  responses_db : List (Nat × List Nat)

/-- The `while f"{base_name}_{i}" in variable_names: i += 1` search: the
least `i ≥ 1` such that `(base, i)` is unused.  Among `length + 1`
candidates one is always free, so the search list is long enough and the
`getD` default is dead. -/
def freshIndex (names : List (String × Nat)) (base : String) : Nat :=
  ((((List.range (names.length + 1)).map (· + 1)).filter fun i =>
    !(names.contains (base, i))).head?).getD 0

/-- `new_variable_name(base_name)`: mint the fresh name and add it to the
used-name set. -/
def new_variable_name (names : List (String × Nat)) (base : String) :
    (String × Nat) × List (String × Nat) :=
  ((base, freshIndex names base), (base, freshIndex names base) :: names)

/-- Append one binding to `variables_to_bind[i]`. -/
def appendAt (l : List (List ((String × Nat) × List Nat))) (i : Nat)
    (x : (String × Nat) × List Nat) : List (List ((String × Nat) × List Nat)) :=
  l.set i (l.getD i [] ++ [x])

/-- `responses_db.append(x)` on a `deque` with `maxlen=RESPONSE_LOOKUP`:
the oldest entry (list head) is evicted when full. -/
def dbPush (db : List (Nat × List Nat)) (x : Nat × List Nat) : List (Nat × List Nat) :=
  let l := db ++ [x]
  l.drop (l.length - RESPONSE_LOOKUP)

/-- One window entry of the `for response_id, text in responses_db` scan:
append a binding and record the variable if the header matches. -/
def scanStep (k : String) (v : List Nat) (st' : OriginState)
    (rt : Nat × List Nat) : OriginState :=
  if matchHeader v rt.2 then
    let nm := new_variable_name st'.variable_names k
    { st' with
      variables_to_bind := appendAt st'.variables_to_bind rt.1 (nm.1, v)
      variable_names := nm.2
      header_to_variable := (v, nm.1) :: st'.header_to_variable }
  else st'

/-- The body of `for header_key, value in request.headers.items()`: the three
skip tests, then `tried_headers.add(value)` and the scan of `responses_db`
(note the scan has no `break`: every matching response appends a binding). -/
def processHeader (base_headers : List String) (st : OriginState)
    (kv : String × List Nat) : OriginState :=
  if base_headers.contains kv.1 then st
  else if (st.header_to_variable.find? fun e => e.1 == kv.2).isSome then st
  else if st.tried_headers.contains kv.2 then st
  else
    let st1 : OriginState := { st with tried_headers := kv.2 :: st.tried_headers }
    st1.responses_db.foldl (scanStep kv.1 kv.2) st1

/-- One iteration of `for request_id, request in enumerate(requests)`:
process the headers, then push the response into the window if its length
lies in `[SIZE_THRESHOLD, MAX_SIZE]`. -/
def processRequest (base_headers : List String) (st : OriginState)
    (ir : Nat × Request) : OriginState :=
  let st' := ir.2.headers.foldl (processHeader base_headers) st
  if SIZE_THRESHOLD ≤ ir.2.responseText.length ∧ ir.2.responseText.length ≤ MAX_SIZE then
    { st' with responses_db := dbPush st'.responses_db (ir.1, ir.2.responseText) }
  else st'

def initialOriginState (n : Nat) : OriginState :=
  ⟨List.replicate n [], [], [], [], []⟩

/-- `infer_headers_origin(requests, base_headers)`. -/
def infer_headers_origin (requests : List Request) (base_headers : List String) :
    List (List ((String × Nat) × List Nat)) :=
  (requests.enum.foldl (processRequest base_headers)
    (initialOriginState requests.length)).variables_to_bind

/-! ## `infer_session_headers` -/

/-- State of the backward pass: the two counter families of the shared
`Counter` (`count[k]` and `count[(k, v)]`) and the `record` table. -/
structure Pass1State where
  countK : String → Nat
  countKV : String × List Nat → Nat
  record : Nat → List String

/-- One header of the backward pass: increment both counters, then record
the key iff `count[k, v] > 1 and count[k, v] / count[k] > 0.5` (exactly:
`2 * count[k, v] > count[k]`). -/
def pass1Header (i : Nat) (st : Pass1State) (kv : String × List Nat) : Pass1State :=
  let ck := st.countK kv.1 + 1
  let ckv := st.countKV (kv.1, kv.2) + 1
  { countK := Function.update st.countK kv.1 ck
    countKV := Function.update st.countKV (kv.1, kv.2) ckv
    record := if ckv > 1 ∧ 2 * ckv > ck then
        Function.update st.record i (st.record i ++ [kv.1])
      else st.record }

/-- The backward pass `for i, r in reversed(list(enumerate(requests)))`. -/
def pass1 (requests : List Request) : Pass1State :=
  requests.enum.reverse.foldl
    (fun st ir => ir.2.headers.foldl (pass1Header ir.1) st)
    ⟨fun _ => 0, fun _ => 0, fun _ => []⟩

/-- Ordered-dict update: overwrite in place, or append a new key at the end. -/
def assocSet (l : List (String × Option (List Nat))) (k : String)
    (v : Option (List Nat)) : List (String × Option (List Nat)) :=
  if (l.find? fun e => e.1 == k).isSome then
    l.map fun e => if e.1 == k then (k, v) else e
  else l ++ [(k, v)]

/-- State of the forward pass: the (decremented) `count[k]` counters, the
running `headers` dict (`none` models the `None` tombstone) and the
accumulated snapshots. -/
structure Pass2State where
  countK : String → Nat
  headers : List (String × Option (List Nat))
  ans : List (List (String × Option (List Nat)))

/-- One iteration of the forward pass, for request `i`: first
`headers[k] = r.headers[k]` for every recorded `k` (which is always a key
of `r`, so the lookup default is dead), then the
decrement-or-tombstone loop over the keys of `headers`, then
`ans.append(headers.copy())`. -/
def pass2Step (n : Nat) (record : Nat → List String) (st : Pass2State)
    (ir : Nat × Request) : Pass2State :=
  let headers1 := (record ir.1).foldl
    (fun hs k => assocSet hs k (some ((((ir.2.headers.find? fun e => e.1 == k).map (·.2)).getD []))))
    st.headers
  let p := headers1.foldl
    (fun (p : (String → Nat) × List (String × Option (List Nat))) e =>
      if (ir.2.headers.find? fun x => x.1 == e.1).isSome then
        (Function.update p.1 e.1 (p.1 e.1 - 1), p.2)
      else if 2 * p.1 e.1 < n - ir.1 then (p.1, assocSet p.2 e.1 none)
      else p)
    (st.countK, headers1)
  ⟨p.1, p.2, st.ans ++ [p.2]⟩

/-- `infer_session_headers(requests)`: backward counting pass, then the
forward snapshot pass reusing the same `count` table. -/
def infer_session_headers (requests : List Request) :
    List (List (String × Option (List Nat))) :=
  let p1 := pass1 requests
  (requests.enum.foldl (pass2Step requests.length p1.record)
    ⟨p1.countK, [], []⟩).ans

/-! ## The `lru_cache(50)` on `_match_wrapped`

For the cache-obliviousness claim the decorated function is modelled with
an explicit cache value threaded through `infer_headers_origin`. -/

/-- The memoization table, most-recently-used entry first. -/
abbrev MatchCache := List ((List Nat × List Nat) × Bool)

/-- `functools.lru_cache(50)` applied to `_match_wrapped`: a hit returns the
stored result and moves the entry to the most-recent position; a miss
computes `_match_wrapped`, inserts the entry most-recent, and drops the
least-recently-used entry beyond capacity 50. -/
def matchWrappedCached (c : MatchCache) (header text : List Nat) : Bool × MatchCache :=
  match c.find? fun e => e.1 == (header, text) with
  | some e => (e.2, ((header, text), e.2) :: c.eraseP (fun e => e.1 == (header, text)))
  | none => (matchWrapped header text, (((header, text), matchWrapped header text) :: c).take 50)

/-- `match` with the cache of `_match_wrapped` made explicit. -/
def matchHeaderCached (c : MatchCache) (header text : List Nat) : Bool × MatchCache :=
  if header.length < SIZE_THRESHOLD then (false, c)
  else if 2 * text.length < header.length then (false, c)
  else if text = [] then (false, c)
  else matchWrappedCached c header text

/-- `scanStep` with the cache threaded through. -/
def scanStepCached (k : String) (v : List Nat) (stc' : OriginState × MatchCache)
    (rt : Nat × List Nat) : OriginState × MatchCache :=
  let mc := matchHeaderCached stc'.2 v rt.2
  if mc.1 then
    let nm := new_variable_name stc'.1.variable_names k
    ({ stc'.1 with
        variables_to_bind := appendAt stc'.1.variables_to_bind rt.1 (nm.1, v)
        variable_names := nm.2
        header_to_variable := (v, nm.1) :: stc'.1.header_to_variable }, mc.2)
  else (stc'.1, mc.2)

/-- `processHeader` with the cache threaded through the window scan. -/
def processHeaderCached (base_headers : List String) (stc : OriginState × MatchCache)
    (kv : String × List Nat) : OriginState × MatchCache :=
  if base_headers.contains kv.1 then stc
  else if (stc.1.header_to_variable.find? fun e => e.1 == kv.2).isSome then stc
  else if stc.1.tried_headers.contains kv.2 then stc
  else
    let st1 : OriginState := { stc.1 with tried_headers := kv.2 :: stc.1.tried_headers }
    st1.responses_db.foldl (scanStepCached kv.1 kv.2) (st1, stc.2)

/-- `processRequest` with the cache threaded through. -/
def processRequestCached (base_headers : List String) (stc : OriginState × MatchCache)
    (ir : Nat × Request) : OriginState × MatchCache :=
  let stc' := ir.2.headers.foldl (processHeaderCached base_headers) stc
  if SIZE_THRESHOLD ≤ ir.2.responseText.length ∧ ir.2.responseText.length ≤ MAX_SIZE then
    ({ stc'.1 with responses_db := dbPush stc'.1.responses_db (ir.1, ir.2.responseText) }, stc'.2)
  else stc'

/-- `infer_headers_origin` run with an arbitrary starting cache state. -/
def infer_headers_origin_cached (c : MatchCache) (requests : List Request)
    (base_headers : List String) : List (List ((String × Nat) × List Nat)) × MatchCache :=
  let fin := requests.enum.foldl (processRequestCached base_headers)
    (initialOriginState requests.length, c)
  (fin.1.variables_to_bind, fin.2)

/-- A cache state is consistent when every stored result is the value of the
pure `_match_wrapped`.  The empty (cold) cache is consistent, and every
cache reachable from a consistent one is (proved below). -/
def CacheConsistent (c : MatchCache) : Prop :=
  ∀ e ∈ c, e.2 = matchWrapped e.1.1 e.1.2

/-! ## Helper notions used by the claim statements -/

/-- Number of bindings carrying the value `v` over the whole output. -/
def bindingsFor (vtb : List (List ((String × Nat) × List Nat))) (v : List Nat) : Nat :=
  (vtb.map fun l => (l.filter fun e => decide (e.2 = v)).length).sum

/-- The eligible responses of a request list, with their indices:
those whose text length lies in `[SIZE_THRESHOLD, MAX_SIZE]`. -/
def eligibleResponses (requests : List Request) : List (Nat × List Nat) :=
  (requests.enum.filter fun ir =>
    decide (SIZE_THRESHOLD ≤ ir.2.responseText.length ∧ ir.2.responseText.length ≤ MAX_SIZE)).map
    fun ir => (ir.1, ir.2.responseText)

/-- Adjacent-pairs lexicographic non-decreasingness. -/
def chainLe : List (List Nat) → Bool
  | u :: v :: rest => lexLe u v && chainLe (v :: rest)
  | _ => true

/-- The property §4.1 of the specification claims of `suffixArray`, stated
from the specification's words (for comparison with the code): `p` is a
permutation of `[0, n)` and the suffixes of `s` taken in the order listed
by `p` are lexicographically non-decreasing. -/
def specSuffixOrder (s p : List Nat) : Prop :=
  p.Perm (List.range s.length) ∧ chainLe (p.map fun i => s.drop i) = true

example : ¬ specSuffixOrder [2, 0, 1] [2, 0, 1] := fun h => by
  have h2 := h.2
  revert h2
  decide

/-! ## Claims C2 and C4: error behaviour of the string algorithms -/

/-- When the first operand is empty no adjacent pair can cross the `a`/`b`
boundary (`pos[i] < 0` is impossible), so the final `max` runs on an empty
sequence and raises, whatever `b` is. -/
theorem longest_common_substring_nil_left (b : List Nat) :
    longest_common_substring [] b = none := by
  cases h : suffix_array (0 :: b) with
  | none => simp [longest_common_substring, h]
  | some sa => simp [longest_common_substring, h]

/-- Claim C2 counterexample: on an empty second operand (with non-empty
first operand) `longest_common_substring` does not raise: it silently
returns 0, exactly what the claim rules out. -/
theorem claim_C2_cex :
    ¬ (longest_common_substring [1] [] = none) ∧ longest_common_substring [1] [] = some 0 := by
  constructor
  · intro h
    revert h
    decide
  · decide

/-- Claim C4 counterexample: on the empty sequence `suffix_array` (and
`kasai` with its default argument, which calls it) raises the `ValueError`
of `max([])` instead of returning an empty array. -/
theorem claim_C4_cex :
    ¬ (suffix_array [] = some [] ∧ kasaiDefault [] = some []) := by
  intro h
  have h1 := h.1
  revert h1
  decide

/-- Claim C4 (amended): on the empty sequence `suffix_array` raises
(`max` of an empty list), hence so does `kasai` when it has to compute the
suffix array itself; `kasai` given an explicitly supplied empty array
does return an empty array. -/
theorem claim_C4_amended :
    suffix_array [] = none ∧ kasaiDefault [] = none ∧ kasai [] [] = [] := by
  refine ⟨by decide, by decide, by decide⟩

/-! ## Claim C3: what `suffix_array` returns -/

/-- Claim C3 counterexample: on `s = [2, 0, 1]` (the string "cab"),
`suffix_array` returns `[2, 0, 1]`, and listing the suffixes in that order
gives "b", "cab", "ab", which is not lexicographically non-decreasing:
the returned list is not the suffix array the claim describes. -/
theorem claim_C3_cex :
    suffix_array [2, 0, 1] = some [2, 0, 1] ∧ ¬ specSuffixOrder [2, 0, 1] [2, 0, 1] := by
  constructor
  · decide
  · intro h
    have h2 := h.2
    revert h2
    decide

/-! ## Claims C8 and C9: algebraic properties of `longest_common_substring` -/

/-- Claim C8 counterexample: with the separator symbol `chr(0)` present in
the operands, symmetry fails (`lcs("x", "x\x00x") = 3` but
`lcs("x\x00x", "x") = 2`) and `lcs(a, a)` overshoots the length
(`lcs("\x00", "\x00") = 2 > 1`), all operands non-empty. -/
theorem claim_C8_cex :
    longest_common_substring [1] [1, 0, 1] = some 3 ∧
      longest_common_substring [1, 0, 1] [1] = some 2 ∧
      longest_common_substring [0] [0] = some 2 := by
  refine ⟨by decide, by decide, by decide⟩

/-- Claim C9 counterexample: `lcs("\x00", "\x00") = 2`, exceeding the
length 1 of both operands, because the matched run crosses the
separator, which equals `chr(0)`. -/
theorem claim_C9_cex :
    longest_common_substring [0] [0] = some 2 ∧
      min (List.length ([0] : List Nat)) (List.length ([0] : List Nat)) = 1 := by
  refine ⟨by decide, by decide⟩

/-! ## Claim C1: bindings per distinct header value -/

lemma bindingsFor_cons (hd : List ((String × Nat) × List Nat))
    (tl : List (List ((String × Nat) × List Nat))) (v : List Nat) :
    bindingsFor (hd :: tl) v =
      (hd.filter fun e => decide (e.2 = v)).length + bindingsFor tl v := rfl

lemma bindingsFor_replicate_nil (n : Nat) (v : List Nat) :
    bindingsFor (List.replicate n []) v = 0 := by
  induction n with
  | zero => rfl
  | succ n ih => simp [List.replicate_succ, bindingsFor_cons, ih]

lemma bindingsFor_appendAt_le (l : List (List ((String × Nat) × List Nat)))
    (i : Nat) (x : (String × Nat) × List Nat) (v : List Nat) :
    bindingsFor (appendAt l i x) v ≤ bindingsFor l v + 1 := by
  induction l generalizing i with
  | nil => simp [appendAt, bindingsFor]
  | cons hd tl ih =>
    cases i with
    | zero =>
      show bindingsFor ((hd ++ [x]) :: tl) v ≤ bindingsFor (hd :: tl) v + 1
      simp only [bindingsFor_cons, List.filter_append, List.length_append]
      have hx : (List.filter (fun e => decide (e.2 = v)) [x]).length ≤ 1 := by
        simp only [List.filter]
        split <;> simp
      omega
    | succ i =>
      show bindingsFor (hd :: appendAt tl i x) v ≤ bindingsFor (hd :: tl) v + 1
      simp only [bindingsFor_cons]
      have := ih i
      omega

lemma bindingsFor_appendAt_ne (l : List (List ((String × Nat) × List Nat)))
    (i : Nat) (x : (String × Nat) × List Nat) (v : List Nat) (hx : x.2 ≠ v) :
    bindingsFor (appendAt l i x) v = bindingsFor l v := by
  induction l generalizing i with
  | nil => rfl
  | cons hd tl ih =>
    cases i with
    | zero =>
      show bindingsFor ((hd ++ [x]) :: tl) v = bindingsFor (hd :: tl) v
      simp [bindingsFor_cons, List.filter_append, List.filter, hx]
    | succ i =>
      show bindingsFor (hd :: appendAt tl i x) v = bindingsFor (hd :: tl) v
      simp [bindingsFor_cons, ih]

lemma scanStep_responses_db (k : String) (v : List Nat) (st : OriginState)
    (rt : Nat × List Nat) : (scanStep k v st rt).responses_db = st.responses_db := by
  unfold scanStep
  split <;> rfl

lemma scanStep_tried (k : String) (v : List Nat) (st : OriginState)
    (rt : Nat × List Nat) : (scanStep k v st rt).tried_headers = st.tried_headers := by
  unfold scanStep
  split <;> rfl

lemma scanStep_bind_le (k : String) (v : List Nat) (st : OriginState)
    (rt : Nat × List Nat) (w : List Nat) :
    bindingsFor (scanStep k v st rt).variables_to_bind w ≤
      bindingsFor st.variables_to_bind w + 1 := by
  unfold scanStep
  split
  · exact bindingsFor_appendAt_le _ _ _ _
  · exact Nat.le_add_right _ _

lemma scanStep_bind_ne (k : String) (v : List Nat) (st : OriginState)
    (rt : Nat × List Nat) (w : List Nat) (hvw : v ≠ w) :
    bindingsFor (scanStep k v st rt).variables_to_bind w =
      bindingsFor st.variables_to_bind w := by
  unfold scanStep
  split
  · exact bindingsFor_appendAt_ne _ _ _ _ hvw
  · rfl

lemma scanFold_responses_db (k : String) (v : List Nat) (db : List (Nat × List Nat))
    (st : OriginState) :
    (db.foldl (scanStep k v) st).responses_db = st.responses_db := by
  induction db generalizing st with
  | nil => rfl
  | cons rt db ih => rw [List.foldl_cons, ih, scanStep_responses_db]

lemma scanFold_tried (k : String) (v : List Nat) (db : List (Nat × List Nat))
    (st : OriginState) :
    (db.foldl (scanStep k v) st).tried_headers = st.tried_headers := by
  induction db generalizing st with
  | nil => rfl
  | cons rt db ih => rw [List.foldl_cons, ih, scanStep_tried]

lemma scanFold_bind_le (k : String) (v : List Nat) (db : List (Nat × List Nat))
    (st : OriginState) (w : List Nat) :
    bindingsFor (db.foldl (scanStep k v) st).variables_to_bind w ≤
      bindingsFor st.variables_to_bind w + db.length := by
  induction db generalizing st with
  | nil => simp
  | cons rt db ih =>
    rw [List.foldl_cons]
    have h1 := ih (scanStep k v st rt)
    have h2 := scanStep_bind_le k v st rt w
    simp only [List.length_cons]
    omega

lemma scanFold_bind_ne (k : String) (v : List Nat) (db : List (Nat × List Nat))
    (st : OriginState) (w : List Nat) (hvw : v ≠ w) :
    bindingsFor (db.foldl (scanStep k v) st).variables_to_bind w =
      bindingsFor st.variables_to_bind w := by
  induction db generalizing st with
  | nil => rfl
  | cons rt db ih => rw [List.foldl_cons, ih, scanStep_bind_ne k v st rt w hvw]

lemma mem_of_contains {l : List (List Nat)} {a : List Nat}
    (h : l.contains a = true) : a ∈ l := by
  simpa using h

/-- The invariant behind the corrected claim C1: the window is bounded by
`RESPONSE_LOOKUP`, a header value that was never tried has no bindings,
and no value ever has more than `RESPONSE_LOOKUP` bindings. -/
def InvC1 (v : List Nat) (st : OriginState) : Prop :=
  st.responses_db.length ≤ RESPONSE_LOOKUP ∧
    (v ∉ st.tried_headers → bindingsFor st.variables_to_bind v = 0) ∧
    bindingsFor st.variables_to_bind v ≤ RESPONSE_LOOKUP

lemma processHeader_InvC1 (bh : List String) (st : OriginState)
    (kv : String × List Nat) (v : List Nat) (h : InvC1 v st) :
    InvC1 v (processHeader bh st kv) := by
  unfold processHeader
  split
  · exact h
  split
  · exact h
  split
  · exact h
  rename_i h1 h2 h3
  obtain ⟨hdb, htried, hle⟩ := h
  refine ⟨?_, ?_, ?_⟩
  · rw [scanFold_responses_db]
    exact hdb
  · intro hv
    rw [scanFold_tried] at hv
    have hne : kv.2 ≠ v := fun e => hv (by rw [e]; exact List.mem_cons_self _ _)
    rw [scanFold_bind_ne _ _ _ _ _ hne]
    exact htried fun hm => hv (List.mem_cons_of_mem _ hm)
  · by_cases hvv : kv.2 = v
    · subst hvv
      have hnt : kv.2 ∉ st.tried_headers := fun hm => h3 (by simpa using hm)
      have h0 := htried hnt
      have := scanFold_bind_le kv.1 kv.2
        ({ st with tried_headers := kv.2 :: st.tried_headers } : OriginState).responses_db
        { st with tried_headers := kv.2 :: st.tried_headers } kv.2
      simp only [h0] at this ⊢
      exact le_trans this (by simpa using hdb)
    · rw [scanFold_bind_ne _ _ _ _ _ hvv]
      exact hle

lemma headersFold_InvC1 (bh : List String) (hs : List (String × List Nat))
    (st : OriginState) (v : List Nat) (h : InvC1 v st) :
    InvC1 v (hs.foldl (processHeader bh) st) := by
  induction hs generalizing st with
  | nil => exact h
  | cons kv hs ih => exact ih _ (processHeader_InvC1 bh st kv v h)

lemma dbPush_length_le (db : List (Nat × List Nat)) (x : Nat × List Nat) :
    (dbPush db x).length ≤ RESPONSE_LOOKUP := by
  unfold dbPush
  simp only [List.length_drop]
  omega

lemma processRequest_InvC1 (bh : List String) (st : OriginState)
    (ir : Nat × Request) (v : List Nat) (h : InvC1 v st) :
    InvC1 v (processRequest bh st ir) := by
  unfold processRequest
  have h' := headersFold_InvC1 bh ir.2.headers st v h
  split
  · exact ⟨dbPush_length_le _ _, h'.2.1, h'.2.2⟩
  · exact h'

lemma runFold_InvC1 (bh : List String) (l : List (Nat × Request))
    (st : OriginState) (v : List Nat) (h : InvC1 v st) :
    InvC1 v (l.foldl (processRequest bh) st) := by
  induction l generalizing st with
  | nil => exact h
  | cons ir l ih => exact ih _ (processRequest_InvC1 bh st ir v h)

lemma processHeader_tried_mem (bh : List String) (st : OriginState)
    (kv : String × List Nat) (v : List Nat) (h : v ∈ st.tried_headers) :
    v ∈ (processHeader bh st kv).tried_headers := by
  unfold processHeader
  split
  · exact h
  split
  · exact h
  split
  · exact h
  rw [scanFold_tried]
  exact List.mem_cons_of_mem _ h

lemma processHeader_bind_frozen (bh : List String) (st : OriginState)
    (kv : String × List Nat) (v : List Nat) (h : v ∈ st.tried_headers) :
    bindingsFor (processHeader bh st kv).variables_to_bind v =
      bindingsFor st.variables_to_bind v := by
  unfold processHeader
  split
  · rfl
  split
  · rfl
  split
  · rfl
  rename_i h1 h2 h3
  have hne : kv.2 ≠ v := fun e => h3 (by simpa using (e ▸ h))
  exact scanFold_bind_ne _ _ _ _ _ hne

lemma headersFold_frozen (bh : List String) (hs : List (String × List Nat))
    (st : OriginState) (v : List Nat) (h : v ∈ st.tried_headers) :
    bindingsFor (hs.foldl (processHeader bh) st).variables_to_bind v =
        bindingsFor st.variables_to_bind v ∧
      v ∈ (hs.foldl (processHeader bh) st).tried_headers := by
  induction hs generalizing st with
  | nil => exact ⟨rfl, h⟩
  | cons kv hs ih =>
    have hm := processHeader_tried_mem bh st kv v h
    have he := processHeader_bind_frozen bh st kv v h
    have := ih (processHeader bh st kv) hm
    exact ⟨by rw [List.foldl_cons, this.1, he], by rw [List.foldl_cons]; exact this.2⟩

lemma processRequest_frozen (bh : List String) (st : OriginState)
    (ir : Nat × Request) (v : List Nat) (h : v ∈ st.tried_headers) :
    bindingsFor (processRequest bh st ir).variables_to_bind v =
        bindingsFor st.variables_to_bind v ∧
      v ∈ (processRequest bh st ir).tried_headers := by
  unfold processRequest
  have h' := headersFold_frozen bh ir.2.headers st v h
  split
  · exact h'
  · exact h'

lemma runFold_frozen (bh : List String) (l : List (Nat × Request))
    (st : OriginState) (v : List Nat) (h : v ∈ st.tried_headers) :
    bindingsFor (l.foldl (processRequest bh) st).variables_to_bind v =
      bindingsFor st.variables_to_bind v := by
  induction l generalizing st with
  | nil => rfl
  | cons ir l ih =>
    have h' := processRequest_frozen bh st ir v h
    rw [List.foldl_cons, ih _ h'.2, h'.1]

/-- A 16-symbol header value, long enough to pass the size threshold. -/
def v16 : List Nat := List.replicate 16 1

/-- Two requests whose (eligible, identical) responses both match the header
value of the third request. -/
def cexRequests : List Request :=
  [⟨[], v16⟩, ⟨[], v16⟩, ⟨[("h", v16)], []⟩]

/-- Claim C1 counterexample: the window scan has no `break`, so the single
scan for the value `v16` appends one binding per matching window entry:
two bindings are created for one distinct header value, one on response 0
and one on response 1. -/
theorem claim_C1_cex :
    bindingsFor (infer_headers_origin cexRequests []) v16 = 2 ∧
      infer_headers_origin cexRequests [] =
        [[(("h", 1), v16)], [(("h", 2), v16)], []] := by
  refine ⟨by decide, by decide⟩

/-- Claim C1 (amended): each distinct header value is scanned at most once —
once a value is in `tried_headers`, processing any further requests never
changes its bindings — but within that single scan one binding is appended
per matching window entry, so a value can receive up to
`RESPONSE_LOOKUP = 5` bindings over the run (bounded by the window
capacity), not at most one. -/
theorem claim_C1_amended (requests : List Request) (base_headers : List String)
    (v : List Nat) (st : OriginState) (rest : List (Nat × Request))
    (hv : v ∈ st.tried_headers) :
    bindingsFor (infer_headers_origin requests base_headers) v ≤ RESPONSE_LOOKUP ∧
      bindingsFor (rest.foldl (processRequest base_headers) st).variables_to_bind v =
        bindingsFor st.variables_to_bind v := by
  constructor
  · have h0 : InvC1 v (initialOriginState requests.length) := by
      refine ⟨by simp [initialOriginState, RESPONSE_LOOKUP], ?_, ?_⟩
      · intro
        exact bindingsFor_replicate_nil _ _
      · rw [initialOriginState]
        simp only
        rw [bindingsFor_replicate_nil]
        exact Nat.zero_le _
    exact (runFold_InvC1 base_headers requests.enum _ v h0).2.2
  · exact runFold_frozen base_headers rest st v hv

/-- Witness for the amended claim C1 at a concrete state and request list. -/
theorem claim_C1_amended_witness :
    bindingsFor (infer_headers_origin cexRequests []) v16 ≤ RESPONSE_LOOKUP ∧
      bindingsFor ([((3 : Nat), (⟨[("h", v16)], []⟩ : Request))].foldl (processRequest [])
          ⟨[[]], [], [], [v16], []⟩).variables_to_bind v16 =
        bindingsFor ([[]] : List (List ((String × Nat) × List Nat))) v16 :=
  claim_C1_amended cexRequests [] v16 ⟨[[]], [], [], [v16], []⟩
    [(3, ⟨[("h", v16)], []⟩)] (by decide)

/-! ## Claim C10: bindings are created by strictly later requests -/

lemma getD_replicate_nil (n r : Nat) :
    (List.replicate n ([] : List ((String × Nat) × List Nat))).getD r [] = [] := by
  induction n generalizing r with
  | zero => cases r <;> rfl
  | succ n ih =>
    cases r with
    | zero => rfl
    | succ r => simpa [List.replicate_succ] using ih r

lemma mem_appendAt_getD {l : List (List ((String × Nat) × List Nat))} {i : Nat}
    {x : (String × Nat) × List Nat} {r : Nat} {e : (String × Nat) × List Nat}
    (h : e ∈ (appendAt l i x).getD r []) :
    e ∈ l.getD r [] ∨ (e = x ∧ r = i) := by
  induction l generalizing i r with
  | nil => exact Or.inl h
  | cons hd tl ih =>
    cases i with
    | zero =>
      cases r with
      | zero =>
        have h' : e ∈ hd ++ [x] := h
        rcases List.mem_append.1 h' with h' | h'
        · exact Or.inl h'
        · exact Or.inr ⟨List.mem_singleton.1 h', rfl⟩
      | succ r => exact Or.inl h
    | succ i =>
      cases r with
      | zero => exact Or.inl h
      | succ r =>
        have h' : e ∈ (appendAt tl i x).getD r [] := h
        rcases ih h' with h'' | h''
        · exact Or.inl h''
        · exact Or.inr ⟨h''.1, by rw [h''.2]⟩

lemma scanStep_bind_mem {k : String} {v : List Nat} {st : OriginState}
    {rt : Nat × List Nat} {r : Nat} {e : (String × Nat) × List Nat}
    (h : e ∈ (scanStep k v st rt).variables_to_bind.getD r []) :
    e ∈ st.variables_to_bind.getD r [] ∨ (e.2 = v ∧ r = rt.1) := by
  unfold scanStep at h
  split at h
  · rcases mem_appendAt_getD h with h' | h'
    · exact Or.inl h'
    · exact Or.inr ⟨by rw [h'.1], h'.2⟩
  · exact Or.inl h

lemma scanFold_bind_mem {k : String} {v : List Nat} {db : List (Nat × List Nat)}
    {st : OriginState} {r : Nat} {e : (String × Nat) × List Nat}
    (h : e ∈ (db.foldl (scanStep k v) st).variables_to_bind.getD r []) :
    e ∈ st.variables_to_bind.getD r [] ∨ (e.2 = v ∧ ∃ rt ∈ db, r = rt.1) := by
  induction db generalizing st with
  | nil => exact Or.inl h
  | cons rt db ih =>
    rw [List.foldl_cons] at h
    rcases ih h with h' | h'
    · rcases scanStep_bind_mem h' with h'' | h''
      · exact Or.inl h''
      · exact Or.inr ⟨h''.1, rt, List.mem_cons_self _ _, h''.2⟩
    · exact Or.inr ⟨h'.1, h'.2.choose, List.mem_cons_of_mem _ h'.2.choose_spec.1,
        h'.2.choose_spec.2⟩

lemma processHeader_responses_db (bh : List String) (st : OriginState)
    (kv : String × List Nat) :
    (processHeader bh st kv).responses_db = st.responses_db := by
  unfold processHeader
  split
  · rfl
  split
  · rfl
  split
  · rfl
  exact scanFold_responses_db _ _ _ _

lemma processHeader_bind_mem {bh : List String} {st : OriginState}
    {kv : String × List Nat} {r : Nat} {e : (String × Nat) × List Nat}
    (h : e ∈ (processHeader bh st kv).variables_to_bind.getD r []) :
    e ∈ st.variables_to_bind.getD r [] ∨ (e.2 = kv.2 ∧ ∃ rt ∈ st.responses_db, r = rt.1) := by
  unfold processHeader at h
  split at h
  · exact Or.inl h
  split at h
  · exact Or.inl h
  split at h
  · exact Or.inl h
  have h' := @scanFold_bind_mem kv.1 kv.2 _ _ _ _ h
  exact h'

lemma headersFold_responses_db (bh : List String) (hs : List (String × List Nat))
    (st : OriginState) :
    (hs.foldl (processHeader bh) st).responses_db = st.responses_db := by
  induction hs generalizing st with
  | nil => rfl
  | cons kv hs ih => rw [List.foldl_cons, ih, processHeader_responses_db]

lemma headersFold_bind_mem {bh : List String} {hs : List (String × List Nat)}
    {st : OriginState} {r : Nat} {e : (String × Nat) × List Nat}
    (h : e ∈ (hs.foldl (processHeader bh) st).variables_to_bind.getD r []) :
    e ∈ st.variables_to_bind.getD r [] ∨
      ((∃ kv ∈ hs, e.2 = kv.2) ∧ ∃ rt ∈ st.responses_db, r = rt.1) := by
  induction hs generalizing st with
  | nil => exact Or.inl h
  | cons kv hs ih =>
    rw [List.foldl_cons] at h
    rcases ih h with h' | h'
    · rcases processHeader_bind_mem h' with h'' | h''
      · exact Or.inl h''
      · exact Or.inr ⟨⟨kv, List.mem_cons_self _ _, h''.1⟩, h''.2⟩
    · refine Or.inr ⟨⟨h'.1.choose, List.mem_cons_of_mem _ h'.1.choose_spec.1,
        h'.1.choose_spec.2⟩, ?_⟩
      rw [processHeader_responses_db] at h'
      exact h'.2

/-- The per-prefix invariant for claim C10: window entries all have index
below the next request index, and every recorded binding is justified by a
strictly later request. -/
def GoodBindings (requests : List Request)
    (vtb : List (List ((String × Nat) × List Nat))) : Prop :=
  ∀ r e, e ∈ vtb.getD r [] →
    ∃ q req, requests[q]? = some req ∧ r < q ∧ e.2 ∈ req.headers.map Prod.snd

lemma mem_dbPush {db : List (Nat × List Nat)} {x rt : Nat × List Nat}
    (h : rt ∈ dbPush db x) : rt ∈ db ∨ rt = x := by
  unfold dbPush at h
  have h' := List.drop_subset _ _ h
  rcases List.mem_append.1 h' with h'' | h''
  · exact Or.inl h''
  · exact Or.inr (List.mem_singleton.1 h'')

lemma processRequest_good {requests : List Request} {bh : List String}
    {st : OriginState} {m : Nat} {r0 : Request}
    (hget : requests[m]? = some r0)
    (hdb : ∀ rt ∈ st.responses_db, rt.1 < m)
    (hgood : GoodBindings requests st.variables_to_bind) :
    GoodBindings requests (processRequest bh st (m, r0)).variables_to_bind ∧
      ∀ rt ∈ (processRequest bh st (m, r0)).responses_db, rt.1 < m + 1 := by
  unfold processRequest
  have hbind : GoodBindings requests
      ((r0.headers.foldl (processHeader bh) st).variables_to_bind) := by
    intro r e he
    rcases headersFold_bind_mem he with h' | h'
    · exact hgood r e h'
    · obtain ⟨⟨kv, hkv, hev⟩, rt, hrt, hr⟩ := h'
      refine ⟨m, r0, hget, ?_, ?_⟩
      · rw [hr]
        exact hdb rt hrt
      · rw [hev]
        exact List.mem_map.2 ⟨kv, hkv, rfl⟩
  have hdb' : ∀ rt ∈ (r0.headers.foldl (processHeader bh) st).responses_db, rt.1 < m + 1 := by
    rw [headersFold_responses_db]
    intro rt hrt
    exact Nat.lt_succ_of_lt (hdb rt hrt)
  split
  · refine ⟨hbind, ?_⟩
    intro rt hrt
    rcases mem_dbPush hrt with h' | h'
    · exact hdb' rt h'
    · rw [h']
      exact Nat.lt_succ_self m
  · exact ⟨hbind, hdb'⟩

lemma enumFromFold_good (requests : List Request) (bh : List String) :
    ∀ (rest : List Request) (m : Nat) (st : OriginState),
      requests.drop m = rest →
      (∀ rt ∈ st.responses_db, rt.1 < m) →
      GoodBindings requests st.variables_to_bind →
      GoodBindings requests
        ((List.enumFrom m rest).foldl (processRequest bh) st).variables_to_bind := by
  intro rest
  induction rest with
  | nil => intro m st _ _ hgood; exact hgood
  | cons r0 rest ih =>
    intro m st hdrop hdb hgood
    have hget : requests[m]? = some r0 := by
      rw [← List.head?_drop, hdrop]
      rfl
    have hdrop' : requests.drop (m + 1) = rest := by
      rw [← List.drop_drop, hdrop]
      rfl
    have hstep := @processRequest_good _ bh st _ _ hget hdb hgood
    exact ih (m + 1) _ hdrop' hstep.2 hstep.1

/-- Claim C10: every binding recorded at response index `r` carries the
value of a header of some request with index strictly greater than `r`
(it was created while processing that later request); in particular a
request's header is never explained by its own response. -/
theorem claim_C10 (requests : List Request) (base_headers : List String)
    (r : Nat) (e : (String × Nat) × List Nat)
    (h : e ∈ (infer_headers_origin requests base_headers).getD r []) :
    ∃ q req, requests[q]? = some req ∧ r < q ∧ e.2 ∈ req.headers.map Prod.snd := by
  have h0 : GoodBindings requests (initialOriginState requests.length).variables_to_bind := by
    intro r' e' he'
    rw [initialOriginState] at he'
    simp only at he'
    rw [getD_replicate_nil] at he'
    cases he'
  have := enumFromFold_good requests base_headers requests 0 (initialOriginState requests.length)
    (by rw [List.drop_zero]) (by intro rt hrt; cases hrt) h0
  exact this r e h

/-- A 16-symbol value used in the witness for claim C10. -/
def w16 : List Nat := List.replicate 16 2

def c10Requests : List Request := [⟨[], w16⟩, ⟨[("t", w16)], []⟩]

/-- Witness for claim C10: in a two-request run the binding on response 0
is justified by request 1. -/
theorem claim_C10_witness :
    ∃ q req, c10Requests[q]? = some req ∧ 0 < q ∧ w16 ∈ req.headers.map Prod.snd :=
  claim_C10 c10Requests [] 0 (("t", 1), w16) (by decide)

/-! ## Claim C5: the lookback window -/

/-- The eligible `(index, text)` pairs contributed by a list of
already-enumerated requests. -/
def eligOf (l : List (Nat × Request)) : List (Nat × List Nat) :=
  (l.filter fun ir =>
    decide (SIZE_THRESHOLD ≤ ir.2.responseText.length ∧ ir.2.responseText.length ≤ MAX_SIZE)).map
    fun ir => (ir.1, ir.2.responseText)

lemma eligibleResponses_eq_eligOf (requests : List Request) :
    eligibleResponses requests = eligOf requests.enum := rfl

lemma dbPush_lastN (E : List (Nat × List Nat)) (x : Nat × List Nat) :
    dbPush (E.drop (E.length - RESPONSE_LOOKUP)) x =
      (E ++ [x]).drop ((E ++ [x]).length - RESPONSE_LOOKUP) := by
  rcases le_or_lt E.length RESPONSE_LOOKUP with hE | hE
  · have h0 : E.length - RESPONSE_LOOKUP = 0 := Nat.sub_eq_zero_of_le hE
    rw [h0, List.drop_zero]
    rfl
  · have ht : (E.drop (E.length - RESPONSE_LOOKUP)).length = RESPONSE_LOOKUP := by
      rw [List.length_drop]
      omega
    show ((E.drop (E.length - RESPONSE_LOOKUP)) ++ [x]).drop
        (((E.drop (E.length - RESPONSE_LOOKUP)) ++ [x]).length - RESPONSE_LOOKUP) = _
    rw [List.length_append, ht, List.length_append]
    have h1 : RESPONSE_LOOKUP + [x].length - RESPONSE_LOOKUP = 1 := by
      simp
    rw [h1, List.drop_append_eq_append_drop, List.drop_append_eq_append_drop,
      List.drop_drop]
    have h2 : 1 - (E.drop (E.length - RESPONSE_LOOKUP)).length = 0 := by
      rw [ht]
      rfl
    have h3 : E.length + [x].length - RESPONSE_LOOKUP - E.length = 0 := by
      simp only [List.length_cons, List.length_nil]
      omega
    rw [h2, h3]
    simp only [List.drop_zero]
    congr 2
    simp only [List.length_cons, List.length_nil]
    omega

lemma runFold_db (bh : List String) :
    ∀ (l : List (Nat × Request)) (E : List (Nat × List Nat)) (st : OriginState),
      st.responses_db = E.drop (E.length - RESPONSE_LOOKUP) →
      (l.foldl (processRequest bh) st).responses_db =
        (E ++ eligOf l).drop ((E ++ eligOf l).length - RESPONSE_LOOKUP) := by
  intro l
  induction l with
  | nil =>
    intro E st h
    simpa [eligOf] using h
  | cons ir l ih =>
    intro E st h
    rw [List.foldl_cons]
    unfold processRequest
    split
    · rename_i helig
      have hcons : eligOf (ir :: l) = (ir.1, ir.2.responseText) :: eligOf l := by
        simp [eligOf, List.filter_cons, helig]
      rw [hcons, ← List.singleton_append, ← List.append_assoc]
      refine ih (E ++ [(ir.1, ir.2.responseText)]) _ ?_
      show dbPush (List.foldl (processHeader bh) st ir.2.headers).responses_db
          (ir.1, ir.2.responseText) = _
      rw [headersFold_responses_db, h]
      exact dbPush_lastN E _
    · rename_i helig
      have hcons : eligOf (ir :: l) = eligOf l := by
        simp [eligOf, List.filter_cons, helig]
      rw [hcons]
      refine ih E _ ?_
      show (List.foldl (processHeader bh) st ir.2.headers).responses_db = _
      rw [headersFold_responses_db]
      exact h

lemma zip_take_eq {α β : Type} : ∀ (u : List α) (v : List β) (m : Nat),
    (u.zip v).take m = (u.take m).zip (v.take m) := by
  intro u
  induction u with
  | nil => intro v m; simp
  | cons a u ih =>
    intro v m
    cases v with
    | nil => simp
    | cons b v =>
      cases m with
      | zero => rfl
      | succ m => simp [List.zip_cons_cons, ih]

lemma enum_take (l : List Request) (m : Nat) :
    l.enum.take m = (l.take m).enum := by
  rw [List.enum_eq_zip_range, List.enum_eq_zip_range, zip_take_eq]
  congr 1
  rw [List.take_range, List.length_take]

/-- Claim C5: after any number of processed requests the window holds at
most `RESPONSE_LOOKUP = 5` responses, all with text length in
`[SIZE_THRESHOLD, MAX_SIZE] = [16, 100000]`; indeed it is exactly the
suffix of the last (at most) 5 eligible responses of the processed prefix,
so a 6th-oldest eligible response is never present to be matched against. -/
theorem claim_C5 (requests : List Request) (base_headers : List String) (m : Nat) :
    (((requests.enum.take m).foldl (processRequest base_headers)
        (initialOriginState requests.length)).responses_db =
      (eligibleResponses (requests.take m)).drop
        ((eligibleResponses (requests.take m)).length - RESPONSE_LOOKUP)) ∧
    ((requests.enum.take m).foldl (processRequest base_headers)
        (initialOriginState requests.length)).responses_db.length ≤ RESPONSE_LOOKUP ∧
    ∀ rt ∈ ((requests.enum.take m).foldl (processRequest base_headers)
        (initialOriginState requests.length)).responses_db,
      SIZE_THRESHOLD ≤ rt.2.length ∧ rt.2.length ≤ MAX_SIZE := by
  have hchar :
      ((requests.enum.take m).foldl (processRequest base_headers)
        (initialOriginState requests.length)).responses_db =
      (eligOf (requests.enum.take m)).drop
        ((eligOf (requests.enum.take m)).length - RESPONSE_LOOKUP) := by
    have h0 := runFold_db base_headers (requests.enum.take m) []
      (initialOriginState requests.length) rfl
    simpa using h0
  have helig : eligOf (requests.enum.take m) = eligibleResponses (requests.take m) := by
    rw [eligibleResponses_eq_eligOf, enum_take]
  rw [helig] at hchar
  refine ⟨hchar, ?_, ?_⟩
  · rw [hchar, List.length_drop]
    omega
  · intro rt hrt
    rw [hchar] at hrt
    have hmem := List.drop_subset _ _ hrt
    unfold eligibleResponses at hmem
    obtain ⟨ir, hir, heq⟩ := List.mem_map.1 hmem
    have hp := (List.mem_filter.1 hir).2
    have hp' := of_decide_eq_true hp
    rw [← heq]
    exact hp'

/-! ## Claim C6: the backward pass of `infer_session_headers` -/

/-- Number of requests in `l` that carry a header named `k`. -/
def cntK (l : List Request) (k : String) : Nat :=
  (l.filter fun r => decide (k ∈ r.headers.map Prod.fst)).length

/-- Number of requests in `l` that carry the header pair `(k, v)`. -/
def cntKV (l : List Request) (k : String) (v : List Nat) : Nat :=
  (l.filter fun r => decide ((k, v) ∈ r.headers)).length

lemma cntK_cons (r : Request) (rest : List Request) (k : String) :
    cntK (r :: rest) k =
      (if k ∈ r.headers.map Prod.fst then 1 else 0) + cntK rest k := by
  by_cases h : k ∈ r.headers.map Prod.fst <;>
    simp [cntK, List.filter_cons, h, Nat.add_comm]

lemma cntKV_cons (r : Request) (rest : List Request) (k : String) (v : List Nat) :
    cntKV (r :: rest) k v =
      (if (k, v) ∈ r.headers then 1 else 0) + cntKV rest k v := by
  by_cases h : (k, v) ∈ r.headers <;>
    simp [cntKV, List.filter_cons, h, Nat.add_comm]

lemma ph_countK_eq (i : Nat) (st : Pass1State) (kv : String × List Nat) :
    (pass1Header i st kv).countK kv.1 = st.countK kv.1 + 1 := by
  unfold pass1Header
  simp

lemma ph_countK_ne (i : Nat) (st : Pass1State) (kv : String × List Nat)
    (k : String) (hk : k ≠ kv.1) :
    (pass1Header i st kv).countK k = st.countK k := by
  unfold pass1Header
  simp [Function.update_noteq hk]

lemma ph_countKV_eq (i : Nat) (st : Pass1State) (kv : String × List Nat) :
    (pass1Header i st kv).countKV (kv.1, kv.2) = st.countKV (kv.1, kv.2) + 1 := by
  unfold pass1Header
  simp

lemma ph_countKV_ne (i : Nat) (st : Pass1State) (kv : String × List Nat)
    (k : String) (v : List Nat) (hk : (k, v) ≠ (kv.1, kv.2)) :
    (pass1Header i st kv).countKV (k, v) = st.countKV (k, v) := by
  unfold pass1Header
  simp [Function.update_noteq hk]

lemma ph_record_ne (i j : Nat) (st : Pass1State) (kv : String × List Nat)
    (hij : j ≠ i) : (pass1Header i st kv).record j = st.record j := by
  unfold pass1Header
  simp only
  split
  · exact Function.update_noteq hij _ _
  · rfl

lemma ph_record_self (i : Nat) (st : Pass1State) (kv : String × List Nat) :
    (pass1Header i st kv).record i = st.record i ++
      (if st.countKV (kv.1, kv.2) + 1 > 1 ∧
          2 * (st.countKV (kv.1, kv.2) + 1) > st.countK kv.1 + 1
        then [kv.1] else []) := by
  unfold pass1Header
  simp only
  split
  · exact Function.update_same _ _ _
  · simp

lemma headersPass_countK (i : Nat) (hs : List (String × List Nat))
    (st : Pass1State) (k : String) (hnd : (hs.map Prod.fst).Nodup) :
    (hs.foldl (pass1Header i) st).countK k =
      st.countK k + (if k ∈ hs.map Prod.fst then 1 else 0) := by
  induction hs generalizing st with
  | nil => simp
  | cons kv hs ih =>
    rw [List.map_cons, List.nodup_cons] at hnd
    rw [List.foldl_cons, ih _ hnd.2]
    by_cases hk : k = kv.1
    · subst hk
      rw [ph_countK_eq]
      have h1 : kv.1 ∉ List.map Prod.fst hs := hnd.1
      have h2 : kv.1 ∈ List.map Prod.fst (kv :: hs) := by
        rw [List.map_cons]
        exact List.mem_cons_self _ _
      rw [if_neg h1, if_pos h2]
    · rw [ph_countK_ne i st kv k hk]
      simp only [List.map_cons]
      congr 1
      exact if_congr (by simp [hk]) rfl rfl

lemma headersPass_countKV (i : Nat) (hs : List (String × List Nat))
    (st : Pass1State) (k : String) (v : List Nat)
    (hnd : (hs.map Prod.fst).Nodup) :
    (hs.foldl (pass1Header i) st).countKV (k, v) =
      st.countKV (k, v) + (if (k, v) ∈ hs then 1 else 0) := by
  induction hs generalizing st with
  | nil => simp
  | cons kv hs ih =>
    rw [List.map_cons, List.nodup_cons] at hnd
    rw [List.foldl_cons, ih _ hnd.2]
    by_cases hk : (k, v) = (kv.1, kv.2)
    · have hk1 : k = kv.1 := congrArg Prod.fst hk
      have hnotin : (k, v) ∉ hs := fun hm =>
        hnd.1 (hk1 ▸ List.mem_map.2 ⟨(k, v), hm, rfl⟩)
      have hmem : (k, v) ∈ kv :: hs := by
        rw [hk, Prod.mk.eta]
        exact List.mem_cons_self _ _
      rw [hk, ph_countKV_eq, ← hk]
      simp [hnotin, hmem]
    · rw [ph_countKV_ne i st kv k v hk]
      congr 1
      have hiff : ((k, v) ∈ hs) ↔ ((k, v) ∈ kv :: hs) := by
        rw [List.mem_cons]
        constructor
        · exact Or.inr
        · rintro (h | h)
          · exact absurd (by rw [h, Prod.mk.eta]) hk
          · exact h
      exact if_congr hiff rfl rfl

lemma headersPass_record_ne (i j : Nat) (hs : List (String × List Nat))
    (st : Pass1State) (hij : j ≠ i) :
    (hs.foldl (pass1Header i) st).record j = st.record j := by
  induction hs generalizing st with
  | nil => rfl
  | cons kv hs ih => rw [List.foldl_cons, ih, ph_record_ne i j st kv hij]

lemma headersPass_record_notin (i : Nat) (hs : List (String × List Nat))
    (st : Pass1State) (k : String) (hk : k ∉ hs.map Prod.fst) :
    (k ∈ (hs.foldl (pass1Header i) st).record i) ↔ k ∈ st.record i := by
  induction hs generalizing st with
  | nil => exact Iff.rfl
  | cons kv hs ih =>
    rw [List.map_cons] at hk
    have hk1 : k ≠ kv.1 := fun e => hk (e ▸ List.mem_cons_self _ _)
    have hk2 : k ∉ hs.map Prod.fst := fun hm => hk (List.mem_cons_of_mem _ hm)
    rw [List.foldl_cons, ih _ hk2, ph_record_self]
    constructor
    · intro hm
      rcases List.mem_append.1 hm with hm | hm
      · exact hm
      · exfalso
        revert hm
        split
        · intro hm
          exact hk1 (List.mem_singleton.1 hm)
        · intro hm
          cases hm
    · intro hm
      exact List.mem_append.2 (Or.inl hm)

lemma headersPass_record_mem (i : Nat) (hs : List (String × List Nat))
    (st : Pass1State) (k : String) (v : List Nat)
    (hnd : (hs.map Prod.fst).Nodup) (hkv : (k, v) ∈ hs) :
    (k ∈ (hs.foldl (pass1Header i) st).record i) ↔
      k ∈ st.record i ∨
        (st.countKV (k, v) + 1 > 1 ∧ 2 * (st.countKV (k, v) + 1) > st.countK k + 1) := by
  induction hs generalizing st with
  | nil => cases hkv
  | cons kv hs ih =>
    rw [List.map_cons, List.nodup_cons] at hnd
    by_cases hk : k = kv.1
    · subst hk
      have hv : v = kv.2 := by
        rcases List.mem_cons.1 hkv with h | h
        · exact congrArg Prod.snd h
        · exact absurd (List.mem_map.2 ⟨(kv.1, v), h, rfl⟩) hnd.1
      subst hv
      rw [List.foldl_cons, headersPass_record_notin i hs _ kv.1 hnd.1, ph_record_self]
      constructor
      · intro hm
        rcases List.mem_append.1 hm with hm | hm
        · exact Or.inl hm
        · revert hm
          split
          · rename_i hc
            intro _
            exact Or.inr hc
          · intro hm
            cases hm
      · rintro (hm | hc)
        · exact List.mem_append.2 (Or.inl hm)
        · rw [if_pos hc]
          exact List.mem_append.2 (Or.inr (List.mem_singleton.2 rfl))
    · have hkv' : (k, v) ∈ hs := by
        rcases List.mem_cons.1 hkv with h | h
        · exact absurd (congrArg Prod.fst h) hk
        · exact h
      have hkpair : (k, v) ≠ (kv.1, kv.2) := fun e => hk (congrArg Prod.fst e)
      rw [List.foldl_cons, ih _ hnd.2, ph_countKV_ne i st kv k v hkpair,
        ph_countK_ne i st kv k hk, ph_record_self]
      constructor
      · rintro (hm | hc)
        · rcases List.mem_append.1 hm with hm | hm
          · exact Or.inl hm
          · exfalso
            revert hm
            split
            · intro hm
              exact hk (List.mem_singleton.1 hm)
            · intro hm
              cases hm
        · exact Or.inr hc
      · rintro (hm | hc)
        · exact Or.inl (List.mem_append.2 (Or.inl hm))
        · exact Or.inr hc
      · exact hkv'

/-- The action of one enumerated request on the backward-pass state. -/
def pass1Step (ir : Nat × Request) (st : Pass1State) : Pass1State :=
  ir.2.headers.foldl (pass1Header ir.1) st

def pass1Init : Pass1State := ⟨fun _ => 0, fun _ => 0, fun _ => []⟩

lemma pass1_eq_foldr (requests : List Request) :
    pass1 requests = requests.enum.foldr pass1Step pass1Init := by
  unfold pass1
  rw [List.foldl_reverse]
  rfl

lemma enumFromFoldr_char :
    ∀ (rest : List Request) (m : Nat),
      (∀ r ∈ rest, (r.headers.map Prod.fst).Nodup) →
      ((∀ k, ((List.enumFrom m rest).foldr pass1Step pass1Init).countK k = cntK rest k) ∧
        (∀ k v, ((List.enumFrom m rest).foldr pass1Step pass1Init).countKV (k, v) =
          cntKV rest k v) ∧
        (∀ j, j < m → ((List.enumFrom m rest).foldr pass1Step pass1Init).record j = []) ∧
        (∀ t (ht : t < rest.length) k v, (k, v) ∈ (rest.get ⟨t, ht⟩).headers →
          (k ∈ ((List.enumFrom m rest).foldr pass1Step pass1Init).record (m + t) ↔
            (cntKV (rest.drop t) k v > 1 ∧
              2 * cntKV (rest.drop t) k v > cntK (rest.drop t) k)))) := by
  intro rest
  induction rest with
  | nil =>
    intro m _
    refine ⟨fun k => rfl, fun k v => rfl, fun j _ => rfl, fun t ht => absurd ht (by simp)⟩
  | cons r rest ih =>
    intro m hnd
    have hndr : (r.headers.map Prod.fst).Nodup := hnd r (List.mem_cons_self _ _)
    have hndrest : ∀ r' ∈ rest, (r'.headers.map Prod.fst).Nodup :=
      fun r' h => hnd r' (List.mem_cons_of_mem _ h)
    obtain ⟨ihK, ihKV, ihRec, ihMem⟩ := ih (m + 1) hndrest
    refine ⟨?_, ?_, ?_, ?_⟩
    · intro k
      show (r.headers.foldl (pass1Header m) _).countK k = _
      rw [headersPass_countK _ _ _ _ hndr, ihK, cntK_cons]
      omega
    · intro k v
      show (r.headers.foldl (pass1Header m) _).countKV (k, v) = _
      rw [headersPass_countKV _ _ _ _ _ hndr, ihKV, cntKV_cons]
      omega
    · intro j hj
      show (r.headers.foldl (pass1Header m) _).record j = _
      rw [headersPass_record_ne _ _ _ _ (by omega : j ≠ m)]
      exact ihRec j (Nat.lt_succ_of_lt hj)
    · intro t ht k v hkv
      cases t with
      | zero =>
        have hkv0 : (k, v) ∈ r.headers := hkv
        show k ∈ (r.headers.foldl (pass1Header m)
          ((List.enumFrom (m + 1) rest).foldr pass1Step pass1Init)).record (m + 0) ↔ _
        simp only [Nat.add_zero, List.drop_zero]
        rw [headersPass_record_mem m r.headers _ k v hndr hkv0,
          ihRec m (Nat.lt_succ_self m)]
        have hkmem : k ∈ r.headers.map Prod.fst := List.mem_map.2 ⟨(k, v), hkv0, rfl⟩
        rw [cntKV_cons, cntK_cons, if_pos hkv0, if_pos hkmem,
          ihKV k v, ihK k]
        constructor
        · rintro (h | h)
          · cases h
          · omega
        · intro h
          exact Or.inr (by omega)
      | succ t =>
        have ht' : t < rest.length := by
          simpa using ht
        have hkv' : (k, v) ∈ (rest.get ⟨t, ht'⟩).headers := hkv
        show k ∈ (r.headers.foldl (pass1Header m)
          ((List.enumFrom (m + 1) rest).foldr pass1Step pass1Init)).record (m + (t + 1)) ↔ _
        have hne : m + (t + 1) ≠ m := by omega
        rw [headersPass_record_ne _ _ _ _ hne]
        have heq : m + (t + 1) = (m + 1) + t := by omega
        rw [heq]
        exact ihMem t ht' k v hkv'

/-- Claim C6: during the backward pass, a header name `k` with value `v` at
request `i` is recorded into `record[i]` iff, counting occurrences from
index `i` to the end of the sequence (this occurrence included),
`count[(k, v)] > 1` and `count[(k, v)] / count[k] > 0.5` (exactly:
`2 * count[(k, v)] > count[k]`).  Header names within one request are
distinct (they come from a Python `dict`), which the `Nodup` hypothesis
records. -/
theorem claim_C6 (requests : List Request)
    (hnd : ∀ r ∈ requests, (r.headers.map Prod.fst).Nodup)
    (i : Nat) (hi : i < requests.length) (k : String) (v : List Nat)
    (hkv : (k, v) ∈ (requests.get ⟨i, hi⟩).headers) :
    k ∈ (pass1 requests).record i ↔
      (cntKV (requests.drop i) k v > 1 ∧
        2 * cntKV (requests.drop i) k v > cntK (requests.drop i) k) := by
  have h := (enumFromFoldr_char requests 0 hnd).2.2.2 i hi k v hkv
  rw [pass1_eq_foldr]
  simpa using h

def c6Requests : List Request := [⟨[("a", [1])], []⟩, ⟨[("a", [1])], []⟩]

/-- Witness for claim C6 on a two-request run sharing the header `a`. -/
theorem claim_C6_witness :
    "a" ∈ (pass1 c6Requests).record 0 ↔
      (cntKV (c6Requests.drop 0) "a" [1] > 1 ∧
        2 * cntKV (c6Requests.drop 0) "a" [1] > cntK (c6Requests.drop 0) "a") :=
  claim_C6 c6Requests (by decide) 0 (by decide) "a" [1] (by decide)

/-! ## Claim C7: the memoization cache is invisible -/

lemma matchWrappedCached_eq (c : MatchCache) (h t : List Nat)
    (hc : CacheConsistent c) :
    (matchWrappedCached c h t).1 = matchWrapped h t ∧
      CacheConsistent (matchWrappedCached c h t).2 := by
  unfold matchWrappedCached
  cases hfind : c.find? fun e => e.1 == (h, t) with
  | none =>
    refine ⟨rfl, ?_⟩
    intro e he
    have he' := List.take_subset _ _ he
    rcases List.mem_cons.1 he' with he'' | he''
    · rw [he'']
    · exact hc e he''
  | some e0 =>
    have hmem := List.mem_of_find?_eq_some hfind
    have hpred := List.find?_some hfind
    have he0 : e0.1 = (h, t) := by simpa using hpred
    have hval : e0.2 = matchWrapped h t := by
      have := hc e0 hmem
      rw [he0] at this
      exact this
    refine ⟨hval, ?_⟩
    intro e he
    rcases List.mem_cons.1 he with he' | he'
    · rw [he', hval]
    · exact hc e ((List.eraseP_sublist c).subset he')

lemma matchHeaderCached_eq (c : MatchCache) (h t : List Nat)
    (hc : CacheConsistent c) :
    (matchHeaderCached c h t).1 = matchHeader h t ∧
      CacheConsistent (matchHeaderCached c h t).2 := by
  unfold matchHeaderCached matchHeader
  split
  · exact ⟨rfl, hc⟩
  split
  · exact ⟨rfl, hc⟩
  split
  · exact ⟨rfl, hc⟩
  exact matchWrappedCached_eq c h t hc

lemma scanStepCached_eq (k : String) (v : List Nat) (stc : OriginState × MatchCache)
    (rt : Nat × List Nat) (hc : CacheConsistent stc.2) :
    (scanStepCached k v stc rt).1 = scanStep k v stc.1 rt ∧
      CacheConsistent (scanStepCached k v stc rt).2 := by
  unfold scanStepCached scanStep
  have h1 := matchHeaderCached_eq stc.2 v rt.2 hc
  simp only [h1.1]
  split
  · exact ⟨rfl, h1.2⟩
  · exact ⟨rfl, h1.2⟩

lemma scanFoldCached_eq (k : String) (v : List Nat) (db : List (Nat × List Nat)) :
    ∀ (stc : OriginState × MatchCache), CacheConsistent stc.2 →
      (db.foldl (scanStepCached k v) stc).1 = db.foldl (scanStep k v) stc.1 ∧
        CacheConsistent (db.foldl (scanStepCached k v) stc).2 := by
  induction db with
  | nil => exact fun stc hc => ⟨rfl, hc⟩
  | cons rt db ih =>
    intro stc hc
    rw [List.foldl_cons, List.foldl_cons]
    have hstep := scanStepCached_eq k v stc rt hc
    have := ih (scanStepCached k v stc rt) hstep.2
    rw [hstep.1] at this
    exact this

lemma processHeaderCached_eq (bh : List String) (stc : OriginState × MatchCache)
    (kv : String × List Nat) (hc : CacheConsistent stc.2) :
    (processHeaderCached bh stc kv).1 = processHeader bh stc.1 kv ∧
      CacheConsistent (processHeaderCached bh stc kv).2 := by
  unfold processHeaderCached processHeader
  split
  · exact ⟨rfl, hc⟩
  split
  · exact ⟨rfl, hc⟩
  split
  · exact ⟨rfl, hc⟩
  exact scanFoldCached_eq kv.1 kv.2 _ _ hc

lemma headersFoldCached_eq (bh : List String) (hs : List (String × List Nat)) :
    ∀ (stc : OriginState × MatchCache), CacheConsistent stc.2 →
      (hs.foldl (processHeaderCached bh) stc).1 = hs.foldl (processHeader bh) stc.1 ∧
        CacheConsistent (hs.foldl (processHeaderCached bh) stc).2 := by
  induction hs with
  | nil => exact fun stc hc => ⟨rfl, hc⟩
  | cons kv hs ih =>
    intro stc hc
    rw [List.foldl_cons, List.foldl_cons]
    have hstep := processHeaderCached_eq bh stc kv hc
    have := ih (processHeaderCached bh stc kv) hstep.2
    rw [hstep.1] at this
    exact this

lemma processRequestCached_eq (bh : List String) (stc : OriginState × MatchCache)
    (ir : Nat × Request) (hc : CacheConsistent stc.2) :
    (processRequestCached bh stc ir).1 = processRequest bh stc.1 ir ∧
      CacheConsistent (processRequestCached bh stc ir).2 := by
  unfold processRequestCached processRequest
  have h1 := headersFoldCached_eq bh ir.2.headers stc hc
  split
  · refine ⟨?_, h1.2⟩
    simp only [h1.1]
  · exact h1

lemma runFoldCached_eq (bh : List String) (l : List (Nat × Request)) :
    ∀ (stc : OriginState × MatchCache), CacheConsistent stc.2 →
      (l.foldl (processRequestCached bh) stc).1 = l.foldl (processRequest bh) stc.1 ∧
        CacheConsistent (l.foldl (processRequestCached bh) stc).2 := by
  induction l with
  | nil => exact fun stc hc => ⟨rfl, hc⟩
  | cons ir l ih =>
    intro stc hc
    rw [List.foldl_cons, List.foldl_cons]
    have hstep := processRequestCached_eq bh stc ir hc
    have := ih (processRequestCached bh stc ir) hstep.2
    rw [hstep.1] at this
    exact this

/-- Claim C7: the inference passes are deterministic and cache-oblivious.
For any two consistent cache states (cold, warm, or anything reachable),
`infer_headers_origin` run with either cache returns exactly the pure
(uncached) bindings — so the two runs agree with each other — and
`infer_session_headers` (which has no cache) trivially returns identical
snapshots on identical input. -/
theorem claim_C7 (requests : List Request) (base_headers : List String)
    (c1 c2 : MatchCache) (h1 : CacheConsistent c1) (h2 : CacheConsistent c2) :
    (infer_headers_origin_cached c1 requests base_headers).1 =
        infer_headers_origin requests base_headers ∧
      (infer_headers_origin_cached c2 requests base_headers).1 =
        infer_headers_origin requests base_headers ∧
      (infer_headers_origin_cached c1 requests base_headers).1 =
        (infer_headers_origin_cached c2 requests base_headers).1 ∧
      infer_session_headers requests = infer_session_headers requests := by
  have e1 := runFoldCached_eq base_headers requests.enum
    (initialOriginState requests.length, c1) h1
  have e2 := runFoldCached_eq base_headers requests.enum
    (initialOriginState requests.length, c2) h2
  have g1 : (infer_headers_origin_cached c1 requests base_headers).1 =
      infer_headers_origin requests base_headers := by
    unfold infer_headers_origin_cached infer_headers_origin
    simp only [e1.1]
  have g2 : (infer_headers_origin_cached c2 requests base_headers).1 =
      infer_headers_origin requests base_headers := by
    unfold infer_headers_origin_cached infer_headers_origin
    simp only [e2.1]
  exact ⟨g1, g2, g1.trans g2.symm, rfl⟩

def c7Requests : List Request := [⟨[], List.replicate 16 3⟩, ⟨[("c", List.replicate 16 3)], []⟩]

/-- Witness for claim C7: a cold cache and a consistent one-entry warm cache
give the same bindings as the pure run. -/
theorem claim_C7_witness :
    (infer_headers_origin_cached [] c7Requests []).1 =
        infer_headers_origin c7Requests [] ∧
      (infer_headers_origin_cached [(([5], [6]), matchWrapped [5] [6])] c7Requests []).1 =
        infer_headers_origin c7Requests [] ∧
      (infer_headers_origin_cached [] c7Requests []).1 =
        (infer_headers_origin_cached [(([5], [6]), matchWrapped [5] [6])] c7Requests []).1 ∧
      infer_session_headers c7Requests = infer_session_headers c7Requests :=
  claim_C7 c7Requests [] [] [(([5], [6]), matchWrapped [5] [6])]
    (fun e he => absurd he (List.not_mem_nil e))
    (fun e he => by rw [List.mem_singleton.1 he])

/-! ## Lexicographic order: basic lemmas -/

lemma lexLt_irrefl (u : List Nat) : lexLt u u = false := by
  induction u with
  | nil => rfl
  | cons a u ih => simp [lexLt, ih]

lemma lexLt_asymm : ∀ {u v : List Nat}, lexLt u v = true → lexLt v u = false
  | [], [], h => by cases h
  | [], _ :: _, _ => rfl
  | _ :: _, [], h => by cases h
  | a :: u, b :: v, h => by
    by_cases hab : a < b
    · have h1 : ¬ b < a := Nat.lt_asymm hab
      rw [lexLt, if_neg h1, if_pos hab]
    · by_cases hba : b < a
      · rw [lexLt, if_neg hab, if_pos hba] at h
        cases h
      · have hab' : a = b := Nat.le_antisymm (Nat.le_of_not_lt hba) (Nat.le_of_not_lt hab)
        subst hab'
        rw [lexLt, if_neg hab, if_neg hab] at h ⊢
        exact lexLt_asymm h

lemma lexLt_total : ∀ {u v : List Nat}, u ≠ v → lexLt u v = true ∨ lexLt v u = true
  | [], [], h => absurd rfl h
  | [], _ :: _, _ => Or.inl rfl
  | _ :: _, [], _ => Or.inr rfl
  | a :: u, b :: v, h => by
    rcases Nat.lt_trichotomy a b with hab | hab | hab
    · exact Or.inl (by simp [lexLt, hab])
    · subst hab
      have huv : u ≠ v := fun e => h (e ▸ rfl)
      rcases lexLt_total huv with h' | h'
      · exact Or.inl (by simp [lexLt, h'])
      · exact Or.inr (by simp [lexLt, h'])
    · exact Or.inr (by simp [lexLt, hab, Nat.lt_asymm hab])

lemma lexLt_cons_same (a : Nat) (u v : List Nat) :
    lexLt (a :: u) (a :: v) = lexLt u v := by
  simp [lexLt]

lemma lexLt_append_same : ∀ (w u v : List Nat),
    lexLt (w ++ u) (w ++ v) = lexLt u v := by
  intro w
  induction w with
  | nil => intro u v; rfl
  | cons a w ih => intro u v; rw [List.cons_append, List.cons_append,
      lexLt_cons_same, ih]

lemma lexLt_nil_iff (v : List Nat) : lexLt [] v = true ↔ v ≠ [] := by
  cases v with
  | nil => simp [lexLt]
  | cons b v => simp [lexLt]

lemma lexLt_nil_right (u : List Nat) : lexLt u [] = false := by
  cases u <;> rfl

/-- Comparing with a strictly longer list on the right: the right tail is
irrelevant. -/
lemma lexLt_right_ext : ∀ (u v y : List Nat), u.length < v.length →
    lexLt u (v ++ y) = lexLt u v
  | [], [], _, h => absurd h (by simp)
  | [], b :: v, y, _ => rfl
  | a :: u, [], _, h => absurd h (by simp)
  | a :: u, b :: v, y, h => by
    rw [List.cons_append, lexLt, lexLt]
    by_cases hab : a < b
    · rw [if_pos hab, if_pos hab]
    · rw [if_neg hab, if_neg hab]
      by_cases hba : b < a
      · rw [if_pos hba, if_pos hba]
      · rw [if_neg hba, if_neg hba]
        exact lexLt_right_ext u v y (by simpa using h)

/-- Comparing with a strictly longer list on the left: the left tail is
irrelevant. -/
lemma lexLt_left_ext : ∀ (u v x : List Nat), v.length < u.length →
    lexLt (u ++ x) v = lexLt u v
  | [], _, _, h => absurd h (by simp)
  | a :: u, [], x, _ => rfl
  | a :: u, b :: v, x, h => by
    rw [List.cons_append, lexLt, lexLt]
    by_cases hab : a < b
    · rw [if_pos hab, if_pos hab]
    · rw [if_neg hab, if_neg hab]
      by_cases hba : b < a
      · rw [if_pos hba, if_pos hba]
      · rw [if_neg hba, if_neg hba]
        exact lexLt_left_ext u v x (by simpa using h)

/-- With equal lengths and distinct lists, appended tails are irrelevant. -/
lemma lexLt_append_ext : ∀ (u v x y : List Nat), u.length = v.length → u ≠ v →
    lexLt (u ++ x) (v ++ y) = lexLt u v
  | [], [], _, _, _, h => absurd rfl h
  | [], b :: v, _, _, h, _ => absurd h (by simp)
  | a :: u, [], _, _, h, _ => absurd h (by simp)
  | a :: u, b :: v, x, y, h, hne => by
    rw [List.cons_append, List.cons_append, lexLt, lexLt]
    by_cases hab : a < b
    · rw [if_pos hab, if_pos hab]
    · rw [if_neg hab, if_neg hab]
      by_cases hba : b < a
      · rw [if_pos hba, if_pos hba]
      · rw [if_neg hba, if_neg hba]
        have hab' : a = b := Nat.le_antisymm (Nat.le_of_not_lt hba) (Nat.le_of_not_lt hab)
        subst hab'
        exact lexLt_append_ext u v x y (by simpa using h) (fun e => hne (e ▸ rfl))

/-! ## `lcpLen`: basic lemmas -/

lemma lcpLen_comm : ∀ (u v : List Nat), lcpLen u v = lcpLen v u
  | [], [] => rfl
  | [], _ :: _ => rfl
  | _ :: _, [] => rfl
  | a :: u, b :: v => by
    by_cases h : a = b
    · subst h
      simp [lcpLen, lcpLen_comm u v]
    · have h' : ¬ b = a := fun e => h e.symm
      rw [lcpLen, if_neg h, lcpLen, if_neg h']

lemma lcpLen_le_left : ∀ (u v : List Nat), lcpLen u v ≤ u.length
  | [], _ => Nat.le_refl _
  | _ :: _, [] => Nat.zero_le _
  | a :: u, b :: v => by
    by_cases h : a = b
    · simpa [lcpLen, h] using lcpLen_le_left u v
    · simp [lcpLen, h]

lemma lcpLen_le_right (u v : List Nat) : lcpLen u v ≤ v.length := by
  rw [lcpLen_comm]
  exact lcpLen_le_left v u

/-- Splitting a longest common prefix at an already-matched length. -/
lemma lcpLen_add : ∀ (k : Nat) (u v : List Nat), k ≤ lcpLen u v →
    lcpLen u v = k + lcpLen (u.drop k) (v.drop k)
  | 0, u, v, _ => by simp
  | k + 1, [], v, h => by simp [lcpLen] at h
  | k + 1, _ :: _, [], h => by simp [lcpLen] at h
  | k + 1, a :: u, b :: v, h => by
    by_cases hab : a = b
    · rw [lcpLen, if_pos hab] at h ⊢
      rw [List.drop_succ_cons, List.drop_succ_cons]
      have := lcpLen_add k u v (by omega)
      omega
    · rw [lcpLen, if_neg hab] at h
      omega

/-- The characters of the common prefix agree. -/
lemma lcpLen_getD : ∀ (u v : List Nat) (t : Nat), t < lcpLen u v →
    u.getD t 0 = v.getD t 0
  | [], v, t, h => by simp [lcpLen] at h
  | _ :: _, [], t, h => by simp [lcpLen] at h
  | a :: u, b :: v, t, h => by
    by_cases hab : a = b
    · cases t with
      | zero => exact hab
      | succ t =>
        rw [lcpLen, if_pos hab] at h
        exact lcpLen_getD u v t (by omega)
    · rw [lcpLen, if_neg hab] at h
      omega

/-- A common prefix of length `t` forces `lcpLen ≥ t`. -/
lemma le_lcpLen_of_take_eq : ∀ (t : Nat) (u v : List Nat), t ≤ u.length →
    t ≤ v.length → u.take t = v.take t → t ≤ lcpLen u v
  | 0, _, _, _, _, _ => Nat.zero_le _
  | t + 1, [], v, hu, _, _ => by simp at hu
  | t + 1, _ :: _, [], _, hv, _ => by simp at hv
  | t + 1, a :: u, b :: v, hu, hv, he => by
    rw [List.take_succ_cons, List.take_succ_cons, List.cons.injEq] at he
    rw [lcpLen, if_pos he.1]
    have := le_lcpLen_of_take_eq t u v (by simpa using hu) (by simpa using hv) he.2
    omega

/-- The first `lcpLen` characters are a common prefix. -/
lemma take_lcpLen_eq : ∀ (u v : List Nat) (t : Nat), t ≤ lcpLen u v →
    u.take t = v.take t
  | _, _, 0, _ => by simp
  | [], v, t + 1, h => by simp [lcpLen] at h
  | _ :: _, [], t + 1, h => by simp [lcpLen] at h
  | a :: u, b :: v, t + 1, h => by
    by_cases hab : a = b
    · rw [lcpLen, if_pos hab] at h
      rw [List.take_succ_cons, List.take_succ_cons, hab,
        take_lcpLen_eq u v t (by omega)]
    · rw [lcpLen, if_neg hab] at h
      omega

lemma lexLt_head_le {a b : Nat} {u v : List Nat}
    (h : lexLt (a :: u) (b :: v) = true ∨ a :: u = b :: v) : a ≤ b := by
  rcases h with h | h
  · rw [lexLt] at h
    split at h
    · rename_i h'
      exact Nat.le_of_lt h'
    · split at h
      · cases h
      · rename_i h' h''
        omega
  · cases h
    exact Nat.le_refl _

lemma lexLt_tail_or {a : Nat} {u v : List Nat}
    (h : lexLt (a :: u) (a :: v) = true ∨ a :: u = a :: v) :
    lexLt u v = true ∨ u = v := by
  rcases h with h | h
  · rw [lexLt, if_neg (Nat.lt_irrefl a), if_neg (Nat.lt_irrefl a)] at h
    exact Or.inl h
  · cases h
    exact Or.inr rfl

/-- Squeeze on the right argument: if `u ≤ v ≤ w` lexicographically then the
common prefix of the outer pair is at most that of `u` with `v`. -/
lemma lcp_squeeze_right : ∀ (u v w : List Nat),
    (lexLt u v = true ∨ u = v) → (lexLt v w = true ∨ v = w) →
    lcpLen u w ≤ lcpLen u v := by
  intro u
  induction u with
  | nil =>
    intro v w _ _
    simp [lcpLen]
  | cons a u ih =>
    intro v w h1 h2
    cases w with
    | nil =>
      have hv : v = [] := by
        rcases h2 with h2 | h2
        · simp [lexLt_nil_right] at h2
        · exact h2
      subst hv
      rcases h1 with h1 | h1
      · simp [lexLt_nil_right] at h1
      · simp at h1
    | cons c w =>
      cases v with
      | nil =>
        rcases h1 with h1 | h1
        · simp [lexLt_nil_right] at h1
        · simp at h1
      | cons b v =>
        rcases Nat.lt_trichotomy a c with hac | hac | hac
        · rw [lcpLen, if_neg (Nat.ne_of_lt hac)]
          exact Nat.zero_le _
        · subst hac
          have hab : a ≤ b := lexLt_head_le h1
          have hba : b ≤ a := lexLt_head_le h2
          have hab' : a = b := Nat.le_antisymm hab hba
          subst hab'
          have h1' := lexLt_tail_or h1
          have h2' := lexLt_tail_or h2
          rw [lcpLen, if_pos rfl, lcpLen, if_pos rfl]
          have := ih v w h1' h2'
          omega
        · have hab : a ≤ b := lexLt_head_le h1
          have hbc : b ≤ c := lexLt_head_le h2
          omega

/-- Squeeze on the left argument. -/
lemma lcp_squeeze_left : ∀ (u v w : List Nat),
    (lexLt u v = true ∨ u = v) → (lexLt v w = true ∨ v = w) →
    lcpLen u w ≤ lcpLen v w := by
  intro u
  induction u with
  | nil =>
    intro v w _ _
    simp [lcpLen]
  | cons a u ih =>
    intro v w h1 h2
    cases w with
    | nil =>
      rw [lcpLen_comm]
      simp [lcpLen]
    | cons c w =>
      cases v with
      | nil =>
        rcases h1 with h1 | h1
        · simp [lexLt_nil_right] at h1
        · simp at h1
      | cons b v =>
        rcases Nat.lt_trichotomy a c with hac | hac | hac
        · rw [lcpLen, if_neg (Nat.ne_of_lt hac)]
          exact Nat.zero_le _
        · subst hac
          have hab : a ≤ b := lexLt_head_le h1
          have hba : b ≤ a := lexLt_head_le h2
          have hab' : a = b := Nat.le_antisymm hab hba
          subst hab'
          have h1' := lexLt_tail_or h1
          have h2' := lexLt_tail_or h2
          rw [lcpLen, if_pos rfl, lcpLen, if_pos rfl]
          have := ih v w h1' h2'
          omega
        · have hab : a ≤ b := lexLt_head_le h1
          have hbc : b ≤ c := lexLt_head_le h2
          omega

/-! ## `to_int_keys`: the returned values are dense ranks -/

/-- The sorted list of distinct keys built inside `to_int_keys`. -/
def sortedKeys (l : List Nat) : List Nat := List.insertionSort (· ≤ ·) l.dedup

lemma sortedKeys_sorted (l : List Nat) : (sortedKeys l).Sorted (· ≤ ·) :=
  List.sorted_insertionSort _ _

lemma sortedKeys_perm (l : List Nat) : List.Perm (sortedKeys l) l.dedup :=
  List.perm_insertionSort _ _

lemma sortedKeys_nodup (l : List Nat) : (sortedKeys l).Nodup :=
  ((sortedKeys_perm l).nodup_iff).2 (List.nodup_dedup l)

lemma mem_sortedKeys {l : List Nat} {v : Nat} : v ∈ sortedKeys l ↔ v ∈ l := by
  rw [(sortedKeys_perm l).mem_iff, List.mem_dedup]

lemma sortedKeys_sorted_lt (l : List Nat) : (sortedKeys l).Sorted (· < ·) := by
  have h1 := sortedKeys_sorted l
  have h2 := sortedKeys_nodup l
  exact (List.Pairwise.and h1 h2).imp fun h => Nat.lt_of_le_of_ne h.1 h.2

lemma sortedKeys_length_le (l : List Nat) : (sortedKeys l).length ≤ l.length :=
  le_trans (le_of_eq (sortedKeys_perm l).length_eq) (List.dedup_sublist l).length_le

lemma sortedKeys_strict {l : List Nat} {i j : Nat}
    (hi : i < (sortedKeys l).length) (hj : j < (sortedKeys l).length) (hij : i < j) :
    (sortedKeys l).get ⟨i, hi⟩ < (sortedKeys l).get ⟨j, hj⟩ :=
  (sortedKeys_sorted_lt l).rel_get_of_lt hij

lemma to_int_keys_getD (l : List Nat) (i : Nat) (hi : i < l.length) :
    (to_int_keys l).getD i 0 = (sortedKeys l).indexOf (l.getD i 0) := by
  unfold to_int_keys
  rw [List.getD_eq_getElem _ _ (by simpa using hi), List.getElem_map,
    List.getD_eq_getElem _ _ hi]
  rfl

lemma to_int_keys_length (l : List Nat) : (to_int_keys l).length = l.length := by
  unfold to_int_keys
  exact List.length_map _ _

lemma indexOf_lt_iff {l : List Nat} {u v : Nat} (hu : u ∈ sortedKeys l)
    (hv : v ∈ sortedKeys l) :
    (sortedKeys l).indexOf u < (sortedKeys l).indexOf v ↔ u < v := by
  have hiu := List.indexOf_lt_length.2 hu
  have hiv := List.indexOf_lt_length.2 hv
  constructor
  · intro h
    have := sortedKeys_strict hiu hiv h
    rwa [List.indexOf_get, List.indexOf_get] at this
  · intro h
    rcases Nat.lt_trichotomy ((sortedKeys l).indexOf u) ((sortedKeys l).indexOf v)
      with h' | h' | h'
    · exact h'
    · exfalso
      have : u = v := by
        have h1 := @List.indexOf_get _ _ u (sortedKeys l) hiu
        have h2 := @List.indexOf_get _ _ v (sortedKeys l) hiv
        rw [← h1, ← h2]
        congr 1
        exact Fin.ext h'
      omega
    · exfalso
      have := sortedKeys_strict hiv hiu h'
      rw [List.indexOf_get, List.indexOf_get] at this
      omega

lemma indexOf_eq_iff {l : List Nat} {u v : Nat} (hu : u ∈ sortedKeys l)
    (hv : v ∈ sortedKeys l) :
    (sortedKeys l).indexOf u = (sortedKeys l).indexOf v ↔ u = v := by
  constructor
  · intro h
    have h1 := @List.indexOf_get _ _ u (sortedKeys l) (List.indexOf_lt_length.2 hu)
    have h2 := @List.indexOf_get _ _ v (sortedKeys l) (List.indexOf_lt_length.2 hv)
    rw [← h1, ← h2]
    congr 1
    exact Fin.ext h
  · intro h
    rw [h]

/-- Density: any value below an attained rank is itself the rank of some
element of the list. -/
lemma indexOf_dense {l : List Nat} {u : Nat} (hu : u ∈ sortedKeys l)
    {v : Nat} (hv : v < (sortedKeys l).indexOf u) :
    ∃ w ∈ l, (sortedKeys l).indexOf w = v := by
  have hlt : v < (sortedKeys l).length :=
    lt_of_lt_of_le (lt_of_lt_of_le hv List.indexOf_le_length) (Nat.le_refl _)
  refine ⟨(sortedKeys l).get ⟨v, hlt⟩, ?_, ?_⟩
  · exact mem_sortedKeys.1 (List.get_mem _ _ _)
  · have hmem : (sortedKeys l).get ⟨v, hlt⟩ ∈ sortedKeys l := List.get_mem _ _ _
    have hidx := List.indexOf_lt_length.2 hmem
    have h1 := @List.indexOf_get _ _ ((sortedKeys l).get ⟨v, hlt⟩)
      (sortedKeys l) hidx
    have := (sortedKeys_nodup l).get_inj_iff.1 h1
    exact congrArg Fin.val this

/-! ## The doubling invariant -/

/-- The length-`K` key of suffix `i`: the first `K` symbols of `s[i:]`. -/
def key (s : List Nat) (K i : Nat) : List Nat := (s.drop i).take K

/-- `line` is the dense rank array of the length-`K` keys of `s`:
correct length, values below `n`, downward-closed value set, and order and
equality of entries mirroring lexicographic order and equality of keys. -/
def Ranks (s : List Nat) (K : Nat) (line : List Nat) : Prop :=
  line.length = s.length ∧
    (∀ i, i < s.length → line.getD i 0 < s.length) ∧
    (∀ i, i < s.length → ∀ v, v < line.getD i 0 →
      ∃ j, j < s.length ∧ line.getD j 0 = v) ∧
    (∀ i j, i < s.length → j < s.length →
      ((line.getD i 0 < line.getD j 0 ↔ lexLt (key s K i) (key s K j) = true) ∧
        (line.getD i 0 = line.getD j 0 ↔ key s K i = key s K j)))

lemma getD_mem {kl : List Nat} {i : Nat} (hi : i < kl.length) :
    kl.getD i 0 ∈ kl := by
  rw [List.getD_eq_getElem _ _ hi]
  exact List.getElem_mem _

lemma ranks_bridge (s : List Nat) (K : Nat) (kl : List Nat)
    (hlen : kl.length = s.length)
    (hord : ∀ i j, i < s.length → j < s.length →
      ((kl.getD i 0 < kl.getD j 0 ↔ lexLt (key s K i) (key s K j) = true) ∧
        (kl.getD i 0 = kl.getD j 0 ↔ key s K i = key s K j))) :
    Ranks s K (to_int_keys kl) := by
  refine ⟨by rw [to_int_keys_length, hlen], ?_, ?_, ?_⟩
  · intro i hi
    rw [to_int_keys_getD kl i (by omega)]
    have hm : kl.getD i 0 ∈ sortedKeys kl := mem_sortedKeys.2 (getD_mem (by omega))
    calc List.indexOf (kl.getD i 0) (sortedKeys kl) < (sortedKeys kl).length :=
          List.indexOf_lt_length.2 hm
      _ ≤ kl.length := sortedKeys_length_le kl
      _ = s.length := hlen
  · intro i hi v hv
    rw [to_int_keys_getD kl i (by omega)] at hv
    have hm : kl.getD i 0 ∈ sortedKeys kl := mem_sortedKeys.2 (getD_mem (by omega))
    obtain ⟨w, hw, hwv⟩ := indexOf_dense hm hv
    obtain ⟨j, hj, hje⟩ := List.mem_iff_getElem.1 hw
    refine ⟨j, by omega, ?_⟩
    rw [to_int_keys_getD kl j (by omega), List.getD_eq_getElem _ _ hj, hje, hwv]
  · intro i j hi hj
    have hmi : kl.getD i 0 ∈ sortedKeys kl := mem_sortedKeys.2 (getD_mem (by omega))
    have hmj : kl.getD j 0 ∈ sortedKeys kl := mem_sortedKeys.2 (getD_mem (by omega))
    rw [to_int_keys_getD kl i (by omega), to_int_keys_getD kl j (by omega)]
    exact ⟨(indexOf_lt_iff hmi hmj).trans ((hord i j hi hj).1),
      (indexOf_eq_iff hmi hmj).trans ((hord i j hi hj).2)⟩

lemma key_one (s : List Nat) (i : Nat) (hi : i < s.length) :
    key s 1 i = [s.getD i 0] := by
  unfold key
  rw [List.drop_eq_getElem_cons hi, List.getD_eq_getElem _ _ hi]
  rfl

lemma lexLt_singleton (a b : Nat) : (lexLt [a] [b] = true) ↔ a < b := by
  by_cases h : a < b
  · simp [lexLt, h]
  · by_cases h2 : b < a <;> simp [lexLt, h, h2]

lemma ranks_initial (s : List Nat) : Ranks s 1 (to_int_keys s) := by
  refine ranks_bridge s 1 s rfl fun i j hi hj => ?_
  rw [key_one s i hi, key_one s j hj]
  constructor
  · exact (lexLt_singleton _ _).symm
  · simp

lemma key_length (s : List Nat) (K i : Nat) :
    (key s K i).length = min K (s.length - i) := by
  unfold key
  rw [List.length_take, List.length_drop]

lemma key_split (s : List Nat) (K K' i : Nat) :
    key s (K + K') i = key s K i ++ key s K' (i + K) := by
  unfold key
  rw [List.take_add, List.drop_drop]

lemma key_take (s : List Nat) (K K' i : Nat) :
    (key s (K + K') i).take K = key s K i := by
  unfold key
  rw [List.take_take, Nat.min_eq_left (Nat.le_add_right K K')]

lemma key_drop (s : List Nat) (K K' i : Nat) :
    (key s (K + K') i).drop K = key s K' (i + K) := by
  unfold key
  rw [List.drop_take, List.drop_drop, Nat.add_sub_cancel_left]

lemma key_of_ge (s : List Nat) (K i : Nat) (h : s.length ≤ i) : key s K i = [] := by
  unfold key
  rw [List.drop_eq_nil_of_le h, List.take_nil]

lemma key_ne_nil (s : List Nat) (K i : Nat) (hi : i < s.length) (hK : 1 ≤ K) :
    key s K i ≠ [] := by
  intro h
  have := congrArg List.length h
  rw [key_length] at this
  simp only [List.length_nil] at this
  omega

lemma key_full_len (s : List Nat) (K i j : Nat) (hi : i ≤ s.length) (hj : j ≤ s.length)
    (hij : i ≠ j) (he : (key s K i).length = (key s K j).length) :
    i + K ≤ s.length ∧ j + K ≤ s.length := by
  rw [key_length, key_length] at he
  omega

lemma doubleKeys_length (n k : Nat) (line : List Nat) (hlen : line.length = n) :
    (doubleKeys n k line).length = n := by
  unfold doubleKeys
  rw [List.length_zipWith, List.length_append, List.length_map, List.length_drop,
    List.length_replicate, hlen]
  omega

lemma doubleKeys_getD (n k : Nat) (line : List Nat) (hlen : line.length = n)
    (i : Nat) (hi : i < n) :
    (doubleKeys n k line).getD i 0 =
      line.getD i 0 * (n + 1) + (if i + k < n then line.getD (i + k) 0 + 1 else 0) := by
  have hdk : (doubleKeys n k line).length = n := doubleKeys_length n k line hlen
  rw [List.getD_eq_getElem _ _ (by omega)]
  unfold doubleKeys at hdk ⊢
  simp only [List.getElem_zipWith]
  have hil : i < line.length := by omega
  rw [List.getElem_append]
  by_cases hik : i + k < n
  · have hmap : i < ((line.drop k).map (· + 1)).length := by
      rw [List.length_map, List.length_drop]
      omega
    have hidrop : i < (line.drop k).length := by
      rw [List.length_drop]
      omega
    have hval : ((line.drop k)[i] : Nat) = line.getD (i + k) 0 := by
      rw [List.getD_eq_getElem _ _ (show i + k < line.length by omega),
        List.getElem_drop]
      congr 1
      omega
    rw [dif_pos hmap, List.getElem_map, hval,
      List.getD_eq_getElem _ _ hil, if_pos hik]
  · have hmap : ¬ i < ((line.drop k).map (· + 1)).length := by
      rw [List.length_map, List.length_drop]
      omega
    rw [dif_neg hmap, List.getElem_replicate, List.getD_eq_getElem _ _ hil,
      if_neg hik]

lemma base_lt {n a1 b1 a2 b2 : Nat} (h : a1 < a2) (hb : b1 ≤ n) :
    a1 * (n + 1) + b1 < a2 * (n + 1) + b2 := by
  calc a1 * (n + 1) + b1 < a1 * (n + 1) + (n + 1) :=
        Nat.add_lt_add_left (Nat.lt_succ_of_le hb) _
    _ = (a1 + 1) * (n + 1) := by ring
    _ ≤ a2 * (n + 1) := Nat.mul_le_mul_right _ h
    _ ≤ a2 * (n + 1) + b2 := Nat.le_add_right _ _

lemma base_lt_iff {n a1 b1 a2 b2 : Nat} (h1 : b1 ≤ n) (h2 : b2 ≤ n) :
    a1 * (n + 1) + b1 < a2 * (n + 1) + b2 ↔
      (a1 < a2 ∨ (a1 = a2 ∧ b1 < b2)) := by
  constructor
  · intro h
    rcases Nat.lt_trichotomy a1 a2 with hh | hh | hh
    · exact Or.inl hh
    · subst hh
      exact Or.inr ⟨rfl, Nat.lt_of_add_lt_add_left h⟩
    · exact absurd (base_lt hh h2) (Nat.lt_asymm h)
  · rintro (hh | ⟨hh, hb⟩)
    · exact base_lt hh h1
    · subst hh
      exact Nat.add_lt_add_left hb _

lemma base_eq_iff {n a1 b1 a2 b2 : Nat} (h1 : b1 ≤ n) (h2 : b2 ≤ n) :
    a1 * (n + 1) + b1 = a2 * (n + 1) + b2 ↔ (a1 = a2 ∧ b1 = b2) := by
  constructor
  · intro h
    rcases Nat.lt_trichotomy a1 a2 with hh | hh | hh
    · have hc := @base_lt _ _ _ _ b2 hh h1
      rw [h] at hc
      exact absurd hc (Nat.lt_irrefl _)
    · subst hh
      exact ⟨rfl, Nat.add_left_cancel h⟩
    · have hc := @base_lt _ _ _ _ b1 hh h2
      rw [h] at hc
      exact absurd hc (Nat.lt_irrefl _)
  · rintro ⟨hh, hb⟩
    rw [hh, hb]

lemma key2_eq_iff (s : List Nat) (K i j : Nat) :
    key s (K + K) i = key s (K + K) j ↔
      (key s K i = key s K j ∧ key s K (i + K) = key s K (j + K)) := by
  constructor
  · intro h
    constructor
    · rw [← key_take s K K i, ← key_take s K K j, h]
    · rw [← key_drop s K K i, ← key_drop s K K j, h]
  · rintro ⟨h1, h2⟩
    rw [key_split, key_split, h1, h2]

lemma key2_lt_iff (s : List Nat) (K i j : Nat) :
    lexLt (key s (K + K) i) (key s (K + K) j) = true ↔
      (lexLt (key s K i) (key s K j) = true ∨
        (key s K i = key s K j ∧ lexLt (key s K (i + K)) (key s K (j + K)) = true)) := by
  by_cases heq : key s K i = key s K j
  · rw [key_split s K K i, key_split s K K j, heq, lexLt_append_same]
    constructor
    · intro h
      exact Or.inr ⟨rfl, h⟩
    · rintro (h | ⟨_, h⟩)
      · rw [lexLt_irrefl] at h
        cases h
      · exact h
  · rcases Nat.lt_trichotomy (key s K i).length (key s K j).length with hl | hl | hl
    · have e1 := key_length s K i
      have e2 := key_length s K j
      have hni : s.length - i < K := by
        rw [e1, e2] at hl
        omega
      have htail : key s K (i + K) = [] := key_of_ge _ _ _ (by omega)
      rw [key_split s K K i, key_split s K K j, htail, List.append_nil,
        lexLt_right_ext _ _ _ hl]
      simp [heq]
    · rw [key_split s K K i, key_split s K K j, lexLt_append_ext _ _ _ _ hl heq]
      simp [heq]
    · have e1 := key_length s K i
      have e2 := key_length s K j
      have hnj : s.length - j < K := by
        rw [e1, e2] at hl
        omega
      have htail : key s K (j + K) = [] := key_of_ge _ _ _ (by omega)
      rw [key_split s K K i, key_split s K K j, htail, List.append_nil,
        lexLt_left_ext _ _ _ hl]
      simp [heq]

lemma e_corr (s : List Nat) (K : Nat) (line : List Nat)
    (hbound : ∀ i, i < s.length → line.getD i 0 < s.length)
    (hord : ∀ i j, i < s.length → j < s.length →
      ((line.getD i 0 < line.getD j 0 ↔ lexLt (key s K i) (key s K j) = true) ∧
        (line.getD i 0 = line.getD j 0 ↔ key s K i = key s K j)))
    (hK : 1 ≤ K) (i j : Nat) (hi : i < s.length) (hj : j < s.length)
    (hkeq : key s K i = key s K j) :
    (((if i + K < s.length then line.getD (i + K) 0 + 1 else 0) <
        (if j + K < s.length then line.getD (j + K) 0 + 1 else 0)) ↔
      lexLt (key s K (i + K)) (key s K (j + K)) = true) ∧
    (((if i + K < s.length then line.getD (i + K) 0 + 1 else 0) =
        (if j + K < s.length then line.getD (j + K) 0 + 1 else 0)) ↔
      key s K (i + K) = key s K (j + K)) := by
  by_cases hij : i = j
  · subst hij
    constructor
    · simp [lexLt_irrefl]
    · simp
  · have hfull : i + K ≤ s.length ∧ j + K ≤ s.length :=
      key_full_len s K i j (Nat.le_of_lt hi) (Nat.le_of_lt hj) hij
        (congrArg List.length hkeq)
    by_cases hik : i + K < s.length
    · by_cases hjk : j + K < s.length
      · rw [if_pos hik, if_pos hjk]
        constructor
        · rw [Nat.add_lt_add_iff_right]
          exact (hord (i + K) (j + K) hik hjk).1
        · rw [Nat.add_right_cancel_iff]
          exact (hord (i + K) (j + K) hik hjk).2
      · have hjn : s.length ≤ j + K := Nat.le_of_not_lt hjk
        have htj : key s K (j + K) = [] := key_of_ge _ _ _ hjn
        rw [if_pos hik, if_neg hjk, htj, lexLt_nil_right]
        constructor
        · simp
        · constructor
          · omega
          · intro h
            exact absurd h (key_ne_nil s K (i + K) hik hK)
    · have hin : s.length ≤ i + K := Nat.le_of_not_lt hik
      have hti : key s K (i + K) = [] := key_of_ge _ _ _ hin
      by_cases hjk : j + K < s.length
      · rw [if_pos hjk, if_neg hik, hti]
        constructor
        · rw [lexLt_nil_iff]
          constructor
          · intro _
            exact key_ne_nil s K (j + K) hjk hK
          · intro _
            omega
        · constructor
          · omega
          · intro h
            exact absurd h.symm (key_ne_nil s K (j + K) hjk hK)
      · have htj : key s K (j + K) = [] := key_of_ge _ _ _ (Nat.le_of_not_lt hjk)
        rw [if_neg hik, if_neg hjk, hti, htj]
        simp [lexLt_irrefl]

/-- One doubling round preserves the rank invariant, doubling the key
length. -/
lemma ranks_double (s : List Nat) (K : Nat) (line : List Nat)
    (hK : 1 ≤ K) (hR : Ranks s K line) :
    Ranks s (K + K) (to_int_keys (doubleKeys s.length K line)) := by
  obtain ⟨hlen, hbound, hdense, hord⟩ := hR
  apply ranks_bridge
  · exact doubleKeys_length _ _ _ hlen
  · intro i j hi hj
    rw [doubleKeys_getD _ _ _ hlen i hi, doubleKeys_getD _ _ _ hlen j hj]
    have hei : (if i + K < s.length then line.getD (i + K) 0 + 1 else 0) ≤ s.length := by
      split
      · rename_i h
        have := hbound (i + K) h
        omega
      · omega
    have hej : (if j + K < s.length then line.getD (j + K) 0 + 1 else 0) ≤ s.length := by
      split
      · rename_i h
        have := hbound (j + K) h
        omega
      · omega
    have hcore := e_corr s K line hbound hord hK i j hi hj
    constructor
    · rw [base_lt_iff hei hej, key2_lt_iff s K i j]
      constructor
      · rintro (h | ⟨h1, h2⟩)
        · exact Or.inl ((hord i j hi hj).1.1 h)
        · have hkeq := (hord i j hi hj).2.1 h1
          exact Or.inr ⟨hkeq, ((hcore hkeq).1).1 h2⟩
      · rintro (h | ⟨hkeq, h⟩)
        · exact Or.inl ((hord i j hi hj).1.2 h)
        · exact Or.inr ⟨(hord i j hi hj).2.2 hkeq, ((hcore hkeq).1).2 h⟩
    · rw [base_eq_iff hei hej, key2_eq_iff s K i j]
      constructor
      · rintro ⟨h1, h2⟩
        have hkeq := (hord i j hi hj).2.1 h1
        exact ⟨hkeq, ((hcore hkeq).2).1 h2⟩
      · rintro ⟨hkeq, h⟩
        exact ⟨(hord i j hi hj).2.2 hkeq, ((hcore hkeq).2).2 h⟩

/-- When the `K`-prefixes differ, full comparison equals prefix comparison. -/
lemma lexLt_take_eq : ∀ (K : Nat) (u v : List Nat), u.take K ≠ v.take K →
    lexLt u v = lexLt (u.take K) (v.take K)
  | 0, u, v, h => absurd rfl h
  | K + 1, [], v, h => by
    cases v with
    | nil => exact absurd rfl h
    | cons b v => rfl
  | K + 1, a :: u, [], h => rfl
  | K + 1, a :: u, b :: v, h => by
    rw [List.take_succ_cons, List.take_succ_cons] at h ⊢
    rw [lexLt, lexLt]
    by_cases hab : a < b
    · rw [if_pos hab, if_pos hab]
    · rw [if_neg hab, if_neg hab]
      by_cases hba : b < a
      · rw [if_pos hba, if_pos hba]
      · rw [if_neg hba, if_neg hba]
        have hab' : a = b := Nat.le_antisymm (Nat.le_of_not_lt hba) (Nat.le_of_not_lt hab)
        subst hab'
        exact lexLt_take_eq K u v fun e => h (e ▸ rfl)

/-- What `suffix_array` actually establishes: the returned list is the rank
array — a permutation of `[0, n)` ordering positions exactly as the lexical
order of the corresponding suffixes. -/
def FinalRanks (s r : List Nat) : Prop :=
  r.length = s.length ∧
    List.Perm r (List.range s.length) ∧
    (∀ i j, i < s.length → j < s.length →
      ((r.getD i 0 < r.getD j 0 ↔ lexLt (s.drop i) (s.drop j) = true) ∧
        (r.getD i 0 = r.getD j 0 ↔ i = j)))

lemma ranks_exit (s : List Nat) (K : Nat) (line : List Nat) (hR : Ranks s K line)
    (m : Nat) (hm : line.max? = some m) (hmax : ¬ m < s.length - 1) :
    FinalRanks s line := by
  obtain ⟨hlen, hbound, hdense, hord⟩ := hR
  have hmm := List.max?_eq_some_iff'.1 hm
  have hne : line ≠ [] := by
    intro h
    rw [h] at hmm
    cases hmm.1
  have hn1 : 1 ≤ s.length := by
    rcases Nat.eq_zero_or_pos s.length with h | h
    · exfalso
      apply hne
      rw [← List.length_eq_zero, hlen, h]
    · exact h
  have hvals : ∀ x ∈ line, x < s.length := by
    intro x hx
    obtain ⟨i, hi, hie⟩ := List.mem_iff_getElem.1 hx
    have := hbound i (by omega)
    rw [List.getD_eq_getElem _ _ hi, hie] at this
    exact this
  have hmn : m = s.length - 1 := by
    have h1 := hvals m hmm.1
    omega
  -- surjectivity of i ↦ line[i] onto [0, n)
  have hsurj : ∀ v, v < s.length → ∃ i, i < s.length ∧ line.getD i 0 = v := by
    intro v hv
    obtain ⟨i0, hi0, hi0e⟩ := List.mem_iff_getElem.1 hmm.1
    have hi0' : i0 < s.length := by omega
    have hget : line.getD i0 0 = m := by
      rw [List.getD_eq_getElem _ _ hi0, hi0e]
    rcases Nat.lt_or_ge v m with hvm | hvm
    · obtain ⟨j, hj, hje⟩ := hdense i0 hi0' v (by omega)
      exact ⟨j, hj, hje⟩
    · have : v = m := by omega
      exact ⟨i0, hi0', by rw [hget, this]⟩
  have hinj : ∀ i j, i < s.length → j < s.length →
      line.getD i 0 = line.getD j 0 → i = j := by
    intro i j hi hj hij
    by_contra hne'
    -- build the injectivity from surjectivity of the Fin map
    have hf : Function.Surjective
        (fun i : Fin s.length => (⟨line.getD i.1 0, hbound i.1 i.2⟩ : Fin s.length)) := by
      intro ⟨v, hv⟩
      obtain ⟨i', hi', hie⟩ := hsurj v hv
      exact ⟨⟨i', hi'⟩, Fin.ext hie⟩
    have hfi := Finite.injective_iff_surjective.2 hf
    have := @hfi ⟨i, hi⟩ ⟨j, hj⟩ (Fin.ext hij)
    exact hne' (congrArg Fin.val this)
  refine ⟨hlen, ?_, ?_⟩
  · -- permutation with [0, n)
    have hnd : line.Nodup := by
      rw [← List.ofFn_get line]
      rw [List.nodup_ofFn]
      intro a b hab
      have ha := a.2
      have hb := b.2
      apply Fin.ext
      apply hinj a.1 b.1 (by omega) (by omega)
      rw [List.getD_eq_getElem _ _ a.2, List.getD_eq_getElem _ _ b.2]
      simpa [List.get_eq_getElem] using hab
    have hsub : line ⊆ List.range s.length := by
      intro x hx
      rw [List.mem_range]
      exact hvals x hx
    have hsp := hnd.subperm hsub
    exact hsp.perm_of_length_le (by rw [hlen, List.length_range])
  · intro i j hi hj
    by_cases hij : i = j
    · subst hij
      refine ⟨?_, by simp⟩
      rw [lexLt_irrefl]
      simp
    · have hkne : key s K i ≠ key s K j := by
        intro h
        exact hij (hinj i j hi hj ((hord i j hi hj).2.2 h))
      constructor
      · rw [(hord i j hi hj).1]
        unfold key at hkne ⊢
        rw [lexLt_take_eq K (s.drop i) (s.drop j) hkne]
      · constructor
        · exact hinj i j hi hj
        · intro h
          exact absurd h hij

lemma saLoop_final (s : List Nat) : ∀ (fuel k : Nat) (line : List Nat),
    1 ≤ k → Ranks s k line → ∀ r, saLoop s.length fuel k line = some r →
    FinalRanks s r := by
  intro fuel
  induction fuel with
  | zero =>
    intro k line _ _ r h
    cases h
  | succ fuel ih =>
    intro k line hk hR r h
    rw [saLoop] at h
    cases hmax : line.max? with
    | none =>
      rw [hmax] at h
      cases h
    | some m =>
      rw [hmax] at h
      have h' : (if m < s.length - 1 then
          saLoop s.length fuel (2 * k) (to_int_keys (doubleKeys s.length k line))
        else some line) = some r := h
      by_cases hlt : m < s.length - 1
      · rw [if_pos hlt] at h'
        have hR2 := ranks_double s k line hk hR
        rw [show k + k = 2 * k by ring] at hR2
        exact ih (2 * k) _ (by omega) hR2 r h'
      · rw [if_neg hlt] at h'
        cases h'
        exact ranks_exit s k line hR m hmax hlt

/-- The central fact about `suffix_array`: whenever it returns, it returns
the rank array of `s`. -/
lemma suffix_array_final {s r : List Nat} (h : suffix_array s = some r) :
    FinalRanks s r :=
  saLoop_final s (s.length + 1) 1 (to_int_keys s) (Nat.le_refl 1)
    (ranks_initial s) r h

/-! ## `inverse_array` -/

lemma foldl_set_length (ps : List (Nat × Nat)) :
    ∀ (ans : List Nat),
      (ps.foldl (fun a iv => a.set iv.2 iv.1) ans).length = ans.length := by
  induction ps with
  | nil => intro ans; rfl
  | cons p ps ih =>
    intro ans
    rw [List.foldl_cons, ih, List.length_set]

lemma inverse_array_length (r : List Nat) : (inverse_array r).length = r.length := by
  unfold inverse_array
  rw [foldl_set_length, List.length_replicate]

lemma foldl_set_no_write (ps : List (Nat × Nat)) :
    ∀ (ans : List Nat) (v : Nat), (∀ q ∈ ps, q.2 ≠ v) →
      (ps.foldl (fun a iv => a.set iv.2 iv.1) ans).getD v 0 = ans.getD v 0 := by
  induction ps with
  | nil => intro ans v _; rfl
  | cons p ps ih =>
    intro ans v hnw
    rw [List.foldl_cons, ih _ v fun q hq => hnw q (List.mem_cons_of_mem _ hq)]
    have hp : p.2 ≠ v := hnw p (List.mem_cons_self _ _)
    rw [List.getD_eq_getElem?_getD, List.getElem?_set_ne hp,
      ← List.getD_eq_getElem?_getD]

lemma foldl_set_write (ps : List (Nat × Nat)) :
    ∀ (ans : List Nat) (v i : Nat), (i, v) ∈ ps →
      (∀ q ∈ ps, q.2 = v → q = (i, v)) → v < ans.length →
      (ps.foldl (fun a iv => a.set iv.2 iv.1) ans).getD v 0 = i := by
  induction ps with
  | nil =>
    intro ans v i hm
    cases hm
  | cons p ps ih =>
    intro ans v i hm huniq hlen
    rw [List.foldl_cons]
    by_cases hmem : (i, v) ∈ ps
    · exact ih _ v i hmem (fun q hq hqv => huniq q (List.mem_cons_of_mem _ hq) hqv)
        (by rw [List.length_set]; exact hlen)
    · have hp : p = (i, v) := by
        rcases List.mem_cons.1 hm with h | h
        · exact h.symm
        · exact absurd h hmem
      subst hp
      rw [foldl_set_no_write ps _ v fun q hq hqv =>
        hmem (huniq q (List.mem_cons_of_mem _ hq) hqv ▸ hq)]
      rw [List.getD_eq_getElem?_getD, List.getElem?_set_self hlen]
      rfl

lemma inverse_array_getD (r : List Nat) (i : Nat) (hi : i < r.length)
    (hv : r.getD i 0 < r.length)
    (huniq : ∀ j, j < r.length → r.getD j 0 = r.getD i 0 → j = i) :
    (inverse_array r).getD (r.getD i 0) 0 = i := by
  unfold inverse_array
  apply foldl_set_write
  · rw [List.mk_mem_enum_iff_getElem?]
    rw [List.getD_eq_getElem _ _ hi]
    exact List.getElem?_eq_getElem hi
  · intro q hq hqv
    rw [List.mem_enum_iff_getElem?] at hq
    have hq1 : q.1 < r.length := by
      by_contra hc
      rw [List.getElem?_eq_none (by omega)] at hq
      cases hq
    have hq2 : r.getD q.1 0 = q.2 := by
      rw [List.getD_eq_getElem?_getD, hq]
      rfl
    have := huniq q.1 hq1 (by rw [hq2, hqv])
    have hq2' : q.2 = r.getD i 0 := hqv
    rw [Prod.ext_iff]
    exact ⟨this, hqv⟩
  · rw [List.length_replicate]
    exact hv

/-- The inverse permutation of a rank array: position of the suffix of each
rank. -/
lemma pos_spec {s r : List Nat} (hF : FinalRanks s r) (t : Nat) (ht : t < s.length) :
    (inverse_array r).getD t 0 < s.length ∧
      r.getD ((inverse_array r).getD t 0) 0 = t := by
  obtain ⟨hlen, hperm, hord⟩ := hF
  have htr : t ∈ r := hperm.mem_iff.2 (List.mem_range.2 ht)
  obtain ⟨i, hi, hie⟩ := List.mem_iff_getElem.1 htr
  have hgetD : r.getD i 0 = t := by
    rw [List.getD_eq_getElem _ _ hi, hie]
  have huniq : ∀ j, j < r.length → r.getD j 0 = r.getD i 0 → j = i := by
    intro j hj hje
    exact ((hord j i (by omega) (by omega)).2).1 hje
  have := inverse_array_getD r i hi (by rw [hgetD]; omega) huniq
  rw [hgetD] at this
  rw [this]
  exact ⟨by omega, hgetD⟩

lemma pos_rank {s r : List Nat} (hF : FinalRanks s r) (i : Nat) (hi : i < s.length) :
    (inverse_array r).getD (r.getD i 0) 0 = i := by
  obtain ⟨hlen, hperm, hord⟩ := hF
  exact inverse_array_getD r i (by omega)
    (by
      have := pos_spec ⟨hlen, hperm, hord⟩
      have hb : r.getD i 0 < s.length := by
        have hm : r.getD i 0 ∈ r := getD_mem (by omega)
        have := hperm.mem_iff.1 hm
        rw [List.mem_range] at this
        omega
      omega)
    (fun j hj hje => ((hord j i (by omega) (by omega)).2).1 hje)

lemma lexLe_of_lexLt : ∀ {u v : List Nat}, lexLt u v = true → lexLe u v = true
  | [], _, _ => rfl
  | _ :: _, [], h => by cases h
  | a :: u, b :: v, h => by
    rw [lexLt] at h
    rw [lexLe]
    by_cases hab : a < b
    · rw [if_pos hab]
    · rw [if_neg hab] at h ⊢
      by_cases hba : b < a
      · rw [if_pos hba] at h
        cases h
      · rw [if_neg hba] at h ⊢
        exact lexLe_of_lexLt h

lemma chainLe_of_adjacent : ∀ (q : List (List Nat)),
    (∀ t, t + 1 < q.length → lexLe (q.getD t []) (q.getD (t + 1) []) = true) →
    chainLe q = true := by
  intro q
  induction q with
  | nil => intro _; rfl
  | cons u q ih =>
    intro h
    cases q with
    | nil => rfl
    | cons v rest =>
      rw [chainLe, Bool.and_eq_true]
      constructor
      · exact h 0 (by simp)
      · exact ih fun t ht => h (t + 1) (by simp at ht ⊢; omega)

lemma perm_range_of (q : List Nat) (n : Nat) (hlen : q.length = n)
    (hvals : ∀ t, t < n → q.getD t 0 < n)
    (hinj : ∀ t1 t2, t1 < n → t2 < n → q.getD t1 0 = q.getD t2 0 → t1 = t2) :
    List.Perm q (List.range n) := by
  have hnd : q.Nodup := by
    rw [← List.ofFn_get q, List.nodup_ofFn]
    intro a b hab
    apply Fin.ext
    apply hinj a.1 b.1 (by omega) (by omega)
    rw [List.getD_eq_getElem _ _ a.2, List.getD_eq_getElem _ _ b.2]
    simpa [List.get_eq_getElem] using hab
  have hsub : q ⊆ List.range n := by
    intro x hx
    obtain ⟨i, hi, hie⟩ := List.mem_iff_getElem.1 hx
    rw [List.mem_range]
    have hv := hvals i (by omega)
    rw [List.getD_eq_getElem _ _ hi, hie] at hv
    exact hv
  exact (hnd.subperm hsub).perm_of_length_le (by rw [hlen, List.length_range])

/-- Claim C3 (amended): `suffix_array` returns the rank array: a permutation
`r` of `[0, n)` whose inverse `inverse_array r` lists the suffix start
positions in lexicographically non-decreasing order of suffixes.  The
specification's ordering property holds of the inverse of the returned
array, not of the returned array itself. -/
theorem claim_C3_amended (s r : List Nat) (h : suffix_array s = some r) :
    List.Perm r (List.range s.length) ∧ specSuffixOrder s (inverse_array r) := by
  have hF := suffix_array_final h
  obtain ⟨hlen, hperm, hord⟩ := hF
  have hF' : FinalRanks s r := ⟨hlen, hperm, hord⟩
  have hlen2 : (inverse_array r).length = s.length := by
    rw [inverse_array_length, hlen]
  refine ⟨hperm, ?_, ?_⟩
  · refine perm_range_of _ _ hlen2 (fun t ht => (pos_spec hF' t ht).1) ?_
    intro t1 t2 h1 h2 he
    have p1 := (pos_spec hF' t1 h1).2
    have p2 := (pos_spec hF' t2 h2).2
    rw [← p1, ← p2, he]
  · apply chainLe_of_adjacent
    intro t ht
    rw [List.length_map, hlen2] at ht
    have hmap : ∀ u, u < (inverse_array r).length →
        ((inverse_array r).map (fun i => s.drop i)).getD u [] =
          s.drop ((inverse_array r).getD u 0) := by
      intro u hu
      rw [List.getD_eq_getElem _ _ (by rw [List.length_map]; omega),
        List.getElem_map, List.getD_eq_getElem _ _ hu]
    rw [hmap t (by omega), hmap (t + 1) (by omega)]
    have hp1 := pos_spec hF' t (by omega)
    have hp2 := pos_spec hF' (t + 1) (by omega)
    apply lexLe_of_lexLt
    apply (hord _ _ hp1.1 hp2.1).1.1
    rw [hp1.2, hp2.2]
    omega

/-- Witness for the amended claim C3 at the input of the counterexample. -/
theorem claim_C3_amended_witness :
    List.Perm [2, 0, 1] (List.range (List.length ([2, 0, 1] : List Nat))) ∧
      specSuffixOrder [2, 0, 1] (inverse_array [2, 0, 1]) :=
  claim_C3_amended [2, 0, 1] [2, 0, 1] (by decide)

/-! ## Correctness of `kasai` -/

lemma rank_lt {s r : List Nat} (hF : FinalRanks s r) {i : Nat} (hi : i < s.length) :
    r.getD i 0 < s.length := by
  obtain ⟨hlen, hperm, _⟩ := hF
  have hm : r.getD i 0 ∈ r := getD_mem (by omega)
  have := hperm.mem_iff.1 hm
  rwa [List.mem_range] at this

/-- Kasai's key estimate: the lcp of suffix `m+1` with its rank-successor
is at least the lcp of suffix `m` with its rank-successor minus one. -/
lemma kasai_step_bound {s r : List Nat} (hF : FinalRanks s r) (m : Nat)
    (hm : m < s.length) (hrm : r.getD m 0 ≠ s.length - 1)
    (hm1 : m + 1 < s.length) (hrm1 : r.getD (m + 1) 0 ≠ s.length - 1) :
    lcpLen (s.drop m) (s.drop ((inverse_array r).getD (r.getD m 0 + 1) 0)) - 1 ≤
      lcpLen (s.drop (m + 1))
        (s.drop ((inverse_array r).getD (r.getD (m + 1) 0 + 1) 0)) := by
  obtain ⟨hlen, hperm, hord⟩ := hF
  have hF' : FinalRanks s r := ⟨hlen, hperm, hord⟩
  by_cases hone : lcpLen (s.drop m) (s.drop ((inverse_array r).getD (r.getD m 0 + 1) 0)) ≤ 1
  · omega
  · have hrmn := rank_lt hF' hm
    have hrm1n : r.getD m 0 + 1 < s.length := by omega
    have hjm := pos_spec hF' (r.getD m 0 + 1) hrm1n
    have hdm : s.drop m = s.getD m 0 :: s.drop (m + 1) := by
      rw [List.drop_eq_getElem_cons hm, List.getD_eq_getElem _ _ hm]
    have hdjm : s.drop ((inverse_array r).getD (r.getD m 0 + 1) 0) =
        s.getD ((inverse_array r).getD (r.getD m 0 + 1) 0) 0 ::
          s.drop ((inverse_array r).getD (r.getD m 0 + 1) 0 + 1) := by
      rw [List.drop_eq_getElem_cons hjm.1, List.getD_eq_getElem _ _ hjm.1]
    have hheads : s.getD m 0 = s.getD ((inverse_array r).getD (r.getD m 0 + 1) 0) 0 := by
      by_contra hc
      have h1 : 1 ≤ lcpLen (s.drop m)
          (s.drop ((inverse_array r).getD (r.getD m 0 + 1) 0)) := by omega
      rw [hdm, hdjm, lcpLen, if_neg hc] at h1
      omega
    have hlcp : lcpLen (s.drop m) (s.drop ((inverse_array r).getD (r.getD m 0 + 1) 0)) =
        lcpLen (s.drop (m + 1))
          (s.drop ((inverse_array r).getD (r.getD m 0 + 1) 0 + 1)) + 1 := by
      rw [hdm, hdjm, lcpLen, if_pos hheads]
    have hlexm : lexLt (s.drop m)
        (s.drop ((inverse_array r).getD (r.getD m 0 + 1) 0)) = true :=
      (hord m _ hm hjm.1).1.1 (by rw [hjm.2]; omega)
    have hlextail : lexLt (s.drop (m + 1))
        (s.drop ((inverse_array r).getD (r.getD m 0 + 1) 0 + 1)) = true := by
      rw [hdm, hdjm, hheads, lexLt_cons_same] at hlexm
      exact hlexm
    have hjm1 : (inverse_array r).getD (r.getD m 0 + 1) 0 + 1 < s.length := by
      have h3 := lcpLen_le_right (s.drop (m + 1))
        (s.drop ((inverse_array r).getD (r.getD m 0 + 1) 0 + 1))
      rw [List.length_drop] at h3
      omega
    have hr1 := rank_lt hF' hm1
    have hrm11 : r.getD (m + 1) 0 + 1 < s.length := by omega
    have hj' := pos_spec hF' (r.getD (m + 1) 0 + 1) hrm11
    have hranktail : r.getD (m + 1) 0 <
        r.getD ((inverse_array r).getD (r.getD m 0 + 1) 0 + 1) 0 :=
      (hord (m + 1) _ hm1 hjm1).1.2 hlextail
    have hmid : lexLt (s.drop ((inverse_array r).getD (r.getD (m + 1) 0 + 1) 0))
          (s.drop ((inverse_array r).getD (r.getD m 0 + 1) 0 + 1)) = true ∨
        s.drop ((inverse_array r).getD (r.getD (m + 1) 0 + 1) 0) =
          s.drop ((inverse_array r).getD (r.getD m 0 + 1) 0 + 1) := by
      by_cases he : r.getD (m + 1) 0 + 1 =
          r.getD ((inverse_array r).getD (r.getD m 0 + 1) 0 + 1) 0
      · right
        have heq : (inverse_array r).getD (r.getD (m + 1) 0 + 1) 0 =
            (inverse_array r).getD (r.getD m 0 + 1) 0 + 1 :=
          (hord _ _ hj'.1 hjm1).2.1 (by rw [hj'.2, he])
        rw [heq]
      · left
        exact (hord _ _ hj'.1 hjm1).1.1 (by rw [hj'.2]; omega)
    have hleft : lexLt (s.drop (m + 1))
        (s.drop ((inverse_array r).getD (r.getD (m + 1) 0 + 1) 0)) = true :=
      (hord (m + 1) _ hm1 hj'.1).1.1 (by rw [hj'.2]; omega)
    have hsq := lcp_squeeze_right (s.drop (m + 1))
      (s.drop ((inverse_array r).getD (r.getD (m + 1) 0 + 1) 0))
      (s.drop ((inverse_array r).getD (r.getD m 0 + 1) 0 + 1))
      (Or.inl hleft) hmid
    omega

/-- The state of the `for i in range(n)` loop of `kasai` after the first `m`
iterations. -/
def kasaiState (s r : List Nat) (m : Nat) : Nat × List Nat :=
  (List.range m).foldl (kasaiStep s r (inverse_array r) s.length)
    (0, List.replicate s.length 0)

lemma kasaiState_succ (s r : List Nat) (m : Nat) :
    kasaiState s r (m + 1) =
      kasaiStep s r (inverse_array r) s.length (kasaiState s r m) m := by
  rw [kasaiState, List.range_succ, List.foldl_append]
  rfl

lemma kasaiStep_of_eq {s sa pos : List Nat} {n : Nat} {st : Nat × List Nat}
    {i : Nat} (h : sa.getD i 0 = n - 1) :
    kasaiStep s sa pos n st i = (0, st.2) := by
  rw [kasaiStep, if_pos h]

lemma kasaiStep_of_ne {s sa pos : List Nat} {n : Nat} {st : Nat × List Nat}
    {i : Nat} (h : ¬ sa.getD i 0 = n - 1) :
    kasaiStep s sa pos n st i =
      (if lcpExtend s i (pos.getD (sa.getD i 0 + 1) 0) st.1 ≠ 0 then
          lcpExtend s i (pos.getD (sa.getD i 0 + 1) 0) st.1 - 1
        else lcpExtend s i (pos.getD (sa.getD i 0 + 1) 0) st.1,
        st.2.set (sa.getD i 0)
          (lcpExtend s i (pos.getD (sa.getD i 0 + 1) 0) st.1)) := by
  rw [kasaiStep, if_neg h]

/-- Fold invariant of `kasai`: entries already written hold the exact lcp of
the indexed suffix with its rank-successor, and the carried `k` is a lower
bound for the next iteration. -/
lemma kasai_inv {s r : List Nat} (hF : FinalRanks s r) :
    ∀ m, m ≤ s.length →
      (kasaiState s r m).2.length = s.length ∧
      (∀ p, p < m → r.getD p 0 ≠ s.length - 1 →
        (kasaiState s r m).2.getD (r.getD p 0) 0 =
          lcpLen (s.drop p)
            (s.drop ((inverse_array r).getD (r.getD p 0 + 1) 0))) ∧
      (m < s.length → r.getD m 0 ≠ s.length - 1 →
        (kasaiState s r m).1 ≤
          lcpLen (s.drop m)
            (s.drop ((inverse_array r).getD (r.getD m 0 + 1) 0))) := by
  intro m
  induction m with
  | zero =>
    intro _
    refine ⟨by simp [kasaiState], fun p hp => absurd hp (by omega), fun _ _ => ?_⟩
    exact Nat.zero_le _
  | succ m ih =>
    intro hm1
    obtain ⟨ihlen, ihdone, ihcarry⟩ := ih (by omega)
    have hmlt : m < s.length := by omega
    by_cases hr : r.getD m 0 = s.length - 1
    · rw [kasaiState_succ, kasaiStep_of_eq hr]
      refine ⟨ihlen, ?_, fun _ _ => Nat.zero_le _⟩
      intro p hp hpne
      by_cases hpm : p < m
      · exact ihdone p hpm hpne
      · have hpe : p = m := by omega
        subst hpe
        exact absurd hr hpne
    · have hrm := rank_lt hF hmlt
      have hrm1 : r.getD m 0 + 1 < s.length := by omega
      have hcarry := ihcarry hmlt hr
      have hk : lcpExtend s m ((inverse_array r).getD (r.getD m 0 + 1) 0)
          (kasaiState s r m).1 =
          lcpLen (s.drop m)
            (s.drop ((inverse_array r).getD (r.getD m 0 + 1) 0)) := by
        rw [lcpExtend]
        have hsplit := lcpLen_add (kasaiState s r m).1 (s.drop m)
          (s.drop ((inverse_array r).getD (r.getD m 0 + 1) 0)) hcarry
        have h1 : List.drop (kasaiState s r m).1 (s.drop m) =
            s.drop (m + (kasaiState s r m).1) := by
          rw [List.drop_drop]
        have h2 : List.drop (kasaiState s r m).1
            (s.drop ((inverse_array r).getD (r.getD m 0 + 1) 0)) =
            s.drop ((inverse_array r).getD (r.getD m 0 + 1) 0 +
              (kasaiState s r m).1) := by
          rw [List.drop_drop]
        rw [hsplit, h1, h2]
      rw [kasaiState_succ, kasaiStep_of_ne hr]
      refine ⟨?_, ?_, ?_⟩
      · dsimp only
        rw [List.length_set]
        exact ihlen
      · intro p hp hpne
        dsimp only
        by_cases hpm : p < m
        · have hne : r.getD m 0 ≠ r.getD p 0 := by
            intro he
            have := (hF.2.2 m p hmlt (by omega)).2.1 he
            omega
          rw [List.getD_eq_getElem?_getD, List.getElem?_set_ne hne,
            ← List.getD_eq_getElem?_getD]
          exact ihdone p hpm hpne
        · have hpe : p = m := by omega
          subst hpe
          rw [List.getD_eq_getElem?_getD,
            List.getElem?_set_self (by rw [ihlen]; exact hrm)]
          simpa using hk
      · intro hm1' hrm1'
        dsimp only
        have hb := kasai_step_bound hF m hmlt hr hm1' hrm1'
        rw [hk]
        by_cases hz : lcpLen (s.drop m)
            (s.drop ((inverse_array r).getD (r.getD m 0 + 1) 0)) = 0
        · rw [if_neg (not_not.2 hz)]
          omega
        · rw [if_pos hz]
          omega

/-- `kasai` is correct: the entry at the rank of suffix `i` is the exact lcp
of suffix `i` with the suffix of next-higher rank. -/
lemma kasai_getD {s r : List Nat} (hF : FinalRanks s r) (i : Nat)
    (hi : i < s.length) (hne : r.getD i 0 ≠ s.length - 1) :
    (kasai s r).getD (r.getD i 0) 0 =
      lcpLen (s.drop i)
        (s.drop ((inverse_array r).getD (r.getD i 0 + 1) 0)) := by
  have he : kasai s r = (kasaiState s r s.length).2 := rfl
  rw [he]
  exact (kasai_inv hF s.length le_rfl).2.1 i hi hne

lemma kasai_length (s r : List Nat) : (kasai s r).length = s.length := by
  have he : kasai s r = (kasaiState s r s.length).2 := rfl
  rw [he]
  suffices h : ∀ m, (kasaiState s r m).2.length = s.length from h s.length
  intro m
  induction m with
  | zero => simp [kasaiState]
  | succ m ih =>
    rw [kasaiState_succ]
    by_cases hr : r.getD m 0 = s.length - 1
    · rw [kasaiStep_of_eq hr]
      exact ih
    · rw [kasaiStep_of_ne hr]
      dsimp only
      rw [List.length_set]
      exact ih

/-! ## Totality of `suffix_array` on non-empty input -/

/-- Once the stride reaches the length, the keys are the full suffixes, so
the ranks are all distinct and their maximum is `n - 1`: the loop exits. -/
lemma ranks_exit_of_ge (s : List Nat) (K : Nat) (line : List Nat)
    (hR : Ranks s K line) (hK : s.length ≤ K) (hs : 1 ≤ s.length) :
    line.max? = some (s.length - 1) := by
  obtain ⟨hlen, hbound, hdense, hord⟩ := hR
  have hkey : ∀ i, i < s.length → key s K i = s.drop i := by
    intro i hi
    unfold key
    apply List.take_of_length_le
    rw [List.length_drop]
    omega
  have hinj : ∀ i j, i < s.length → j < s.length →
      line.getD i 0 = line.getD j 0 → i = j := by
    intro i j hi hj he
    have hke := (hord i j hi hj).2.1 he
    rw [hkey i hi, hkey j hj] at hke
    have hl := congrArg List.length hke
    rw [List.length_drop, List.length_drop] at hl
    omega
  have hperm := perm_range_of line s.length hlen hbound hinj
  apply List.max?_eq_some_iff'.2
  constructor
  · exact hperm.mem_iff.2 (List.mem_range.2 (by omega))
  · intro b hb
    have := List.mem_range.1 (hperm.mem_iff.1 hb)
    omega

lemma saLoop_total (s : List Nat) : ∀ (fuel k : Nat) (line : List Nat),
    1 ≤ k → 1 ≤ s.length → Ranks s k line → s.length ≤ k * 2 ^ fuel →
    (saLoop s.length (fuel + 1) k line).isSome := by
  intro fuel
  induction fuel with
  | zero =>
    intro k line hk hs hR hle
    have hk' : s.length ≤ k := by simpa using hle
    have hmax := ranks_exit_of_ge s k line hR hk' hs
    rw [saLoop, hmax]
    show (if s.length - 1 < s.length - 1 then
        saLoop s.length 0 (2 * k) (to_int_keys (doubleKeys s.length k line))
      else some line).isSome = true
    rw [if_neg (lt_irrefl _)]
    rfl
  | succ fuel ih =>
    intro k line hk hs hR hle
    have hlen := hR.1
    have hnil : line ≠ [] := by
      intro h
      rw [h] at hlen
      simp at hlen
      omega
    rw [saLoop]
    cases hmax : line.max? with
    | none => exact absurd (List.max?_eq_none_iff.1 hmax) hnil
    | some m =>
      show (if m < s.length - 1 then
          saLoop s.length (fuel + 1) (2 * k) (to_int_keys (doubleKeys s.length k line))
        else some line).isSome = true
      by_cases hm : m < s.length - 1
      · rw [if_pos hm]
        have hle2 : s.length ≤ 2 * k * 2 ^ fuel := by
          rw [pow_succ] at hle
          calc s.length ≤ k * (2 ^ fuel * 2) := hle
            _ = 2 * k * 2 ^ fuel := by ring
        exact ih (2 * k) _ (by omega) hs
          (by rw [two_mul]; exact ranks_double s k line hk ⟨hR.1, hR.2.1, hR.2.2.1, hR.2.2.2⟩)
          hle2
      · rw [if_neg hm]
        rfl

/-- `suffix_array` succeeds on every non-empty input. -/
lemma suffix_array_isSome (s : List Nat) (hs : s ≠ []) :
    (suffix_array s).isSome := by
  have hs1 : 1 ≤ s.length := List.length_pos.2 hs
  rw [suffix_array]
  exact saLoop_total s s.length 1 (to_int_keys s) le_rfl hs1 (ranks_initial s)
    (by simpa using (Nat.lt_two_pow s.length).le)

/-! ## Totality of `longest_common_substring` for non-empty `a` -/

lemma max?_isSome_of_ne_nil {L : List Nat} (hL : L ≠ []) : L.max?.isSome := by
  cases hm : L.max? with
  | none => exact absurd (List.max?_eq_none_iff.1 hm) hL
  | some m => rfl

/-- A Boolean sequence that differs at two points below `n` flips somewhere
between adjacent points below `n`. -/
lemma exists_flip (f : Nat → Bool) (n t0 t1 : Nat) (h0 : t0 < n) (h1 : t1 < n)
    (hne : f t0 ≠ f t1) : ∃ u, u + 1 < n ∧ f u ≠ f (u + 1) := by
  by_contra hc
  push_neg at hc
  have hconst : ∀ t, t < n → f t = f 0 := by
    intro t
    induction t with
    | zero => intro _; rfl
    | succ t ih =>
      intro ht
      rw [← hc t ht]
      exact ih (by omega)
  exact hne (by rw [hconst t0 h0, hconst t1 h1])

/-- On a non-empty first operand `longest_common_substring` does not raise:
the generator inside `max` is non-empty. -/
lemma lcs_isSome (a b : List Nat) (ha : a ≠ []) :
    (longest_common_substring a b).isSome := by
  have hsne : a ++ [0] ++ b ≠ [] := by simp
  obtain ⟨sa, hsa⟩ := Option.isSome_iff_exists.1 (suffix_array_isSome _ hsne)
  have hF := suffix_array_final hsa
  have hred : longest_common_substring a b =
      (((List.range ((a ++ [0] ++ b).length - 1)).filter fun i =>
          (decide ((inverse_array sa).getD i 0 < a.length)) !=
            (decide ((inverse_array sa).getD (i + 1) 0 < a.length))).map
        fun i => (kasai (a ++ [0] ++ b) sa).getD i 0).max? := by
    simp only [longest_common_substring, hsa]
  have hn : (a ++ [0] ++ b).length = a.length + 1 + b.length := by
    simp [List.length_append]
    omega
  have ha1 : 1 ≤ a.length := List.length_pos.2 ha
  have hd0 : decide ((0 : Nat) < a.length) = true := decide_eq_true (by omega)
  have hp0 : (inverse_array sa).getD (sa.getD 0 0) 0 = 0 :=
    pos_rank hF 0 (by omega)
  have hp1 : (inverse_array sa).getD
      (sa.getD ((a ++ [0] ++ b).length - 1) 0) 0 = (a ++ [0] ++ b).length - 1 :=
    pos_rank hF _ (by omega)
  have hd1 : decide ((a ++ [0] ++ b).length - 1 < a.length) = false :=
    decide_eq_false (by omega)
  obtain ⟨u, hu, hune⟩ := exists_flip
    (fun i => decide ((inverse_array sa).getD i 0 < a.length))
    ((a ++ [0] ++ b).length) (sa.getD 0 0)
    (sa.getD ((a ++ [0] ++ b).length - 1) 0)
    (rank_lt hF (by omega)) (rank_lt hF (by omega))
    (by
      show decide ((inverse_array sa).getD (sa.getD 0 0) 0 < a.length) ≠
        decide ((inverse_array sa).getD
          (sa.getD ((a ++ [0] ++ b).length - 1) 0) 0 < a.length)
      rw [hp0, hp1, hd0, hd1]
      simp)
  have humem : u ∈ (List.range ((a ++ [0] ++ b).length - 1)).filter fun i =>
      (decide ((inverse_array sa).getD i 0 < a.length)) !=
        (decide ((inverse_array sa).getD (i + 1) 0 < a.length)) :=
    List.mem_filter.2 ⟨List.mem_range.2 (by omega), bne_iff_ne.2 hune⟩
  rw [hred]
  apply max?_isSome_of_ne_nil
  intro hnil
  have := List.mem_map_of_mem (fun i => (kasai (a ++ [0] ++ b) sa).getD i 0) humem
  rw [hnil] at this
  exact absurd this (List.not_mem_nil _)

/-! ## The combined string `a + chr(0) + b` and the crossing bound -/

lemma drop_getD (s : List Nat) (p t : Nat) (h : p + t < s.length) :
    (s.drop p).getD t 0 = s.getD (p + t) 0 := by
  rw [List.getD_eq_getElem _ _ (show t < (s.drop p).length by
      rw [List.length_drop]; omega),
    List.getD_eq_getElem _ _ h, List.getElem_drop]

lemma sepString_getD_left (a b : List Nat) (t : Nat) (ht : t < a.length) :
    (a ++ [0] ++ b).getD t 0 = a.getD t 0 := by
  rw [List.getD_append _ _ _ _ (by rw [List.length_append]; simp; omega),
    List.getD_append _ _ _ _ ht]

lemma sepString_getD_sep (a b : List Nat) :
    (a ++ [0] ++ b).getD a.length 0 = 0 := by
  rw [List.getD_append _ _ _ _ (by rw [List.length_append]; simp),
    List.getD_append_right _ _ _ _ le_rfl]
  simp

lemma sepString_getD_right (a b : List Nat) (t : Nat) (ht : a.length < t) :
    (a ++ [0] ++ b).getD t 0 = b.getD (t - a.length - 1) 0 := by
  rw [List.getD_append_right _ _ _ _ (by rw [List.length_append]; simp; omega)]
  congr 1
  rw [List.length_append]
  simp
  omega

/-- If neither operand contains the separator `0`, a matched run between a
suffix starting inside `a` and one starting at or after the separator cannot
pass the separator: it is bounded by `len(a) - p` and by `len(b)`. -/
lemma lcs_cross_bound (a b : List Nat) (hA : ∀ x ∈ a, x ≠ (0 : Nat))
    (hB : ∀ x ∈ b, x ≠ (0 : Nat)) (p q : Nat)
    (hp : p < a.length) (hq : a.length ≤ q) :
    lcpLen ((a ++ [0] ++ b).drop p) ((a ++ [0] ++ b).drop q) ≤ a.length - p ∧
    lcpLen ((a ++ [0] ++ b).drop p) ((a ++ [0] ++ b).drop q) ≤ b.length := by
  have hn : (a ++ [0] ++ b).length = a.length + 1 + b.length := by
    simp [List.length_append]
    omega
  have hLq := lcpLen_le_right ((a ++ [0] ++ b).drop p) ((a ++ [0] ++ b).drop q)
  rw [List.length_drop] at hLq
  constructor
  · by_contra hgt
    push_neg at hgt
    have hchar := lcpLen_getD ((a ++ [0] ++ b).drop p) ((a ++ [0] ++ b).drop q)
      (a.length - p) hgt
    have hqt : q + (a.length - p) < (a ++ [0] ++ b).length := by omega
    rw [drop_getD _ _ _ (by omega), drop_getD _ _ _ (by omega)] at hchar
    have hpa : p + (a.length - p) = a.length := by omega
    rw [hpa, sepString_getD_sep,
      sepString_getD_right a b _ (by omega)] at hchar
    have hidx : q + (a.length - p) - a.length - 1 < b.length := by omega
    exact hB _ (getD_mem hidx) hchar.symm
  · by_cases hq0 : q = a.length
    · have hL0 : lcpLen ((a ++ [0] ++ b).drop p) ((a ++ [0] ++ b).drop q) = 0 := by
        by_contra h0
        have h1 : 0 < lcpLen ((a ++ [0] ++ b).drop p) ((a ++ [0] ++ b).drop q) := by
          omega
        have hchar := lcpLen_getD _ _ 0 h1
        rw [drop_getD _ _ _ (by omega), drop_getD _ _ _ (by omega),
          Nat.add_zero, Nat.add_zero, hq0, sepString_getD_left a b p hp,
          sepString_getD_sep] at hchar
        exact hA _ (getD_mem hp) hchar
      omega
    · omega

/-- C9 (amended): for operands free of `chr(0)`, whenever
`longest_common_substring` returns a value it is at most the length of each
operand. -/
theorem claim_C9_amended (a b : List Nat) (hA : (0 : Nat) ∉ a)
    (hB : (0 : Nat) ∉ b) (m : Nat)
    (h : longest_common_substring a b = some m) :
    m ≤ min a.length b.length := by
  have hA' : ∀ x ∈ a, x ≠ (0 : Nat) := fun x hx he => hA (he ▸ hx)
  have hB' : ∀ x ∈ b, x ≠ (0 : Nat) := fun x hx he => hB (he ▸ hx)
  cases hsa : suffix_array (a ++ [0] ++ b) with
  | none =>
    have hred : longest_common_substring a b = none := by
      simp only [longest_common_substring, hsa]
    rw [hred] at h
    cases h
  | some sa =>
    have hF := suffix_array_final hsa
    have hred : longest_common_substring a b =
        (((List.range ((a ++ [0] ++ b).length - 1)).filter fun i =>
            (decide ((inverse_array sa).getD i 0 < a.length)) !=
              (decide ((inverse_array sa).getD (i + 1) 0 < a.length))).map
          fun i => (kasai (a ++ [0] ++ b) sa).getD i 0).max? := by
      simp only [longest_common_substring, hsa]
    rw [hred] at h
    have hmem := (List.max?_eq_some_iff'.1 h).1
    obtain ⟨u, humem, hval⟩ := List.mem_map.1 hmem
    obtain ⟨hur, hucond⟩ := List.mem_filter.1 humem
    have hu : u < (a ++ [0] ++ b).length - 1 := List.mem_range.1 hur
    have hucond' : decide ((inverse_array sa).getD u 0 < a.length) ≠
        decide ((inverse_array sa).getD (u + 1) 0 < a.length) :=
      bne_iff_ne.1 hucond
    have hn : (a ++ [0] ++ b).length = a.length + 1 + b.length := by
      simp [List.length_append]
      omega
    have hps := pos_spec hF u (by omega)
    have hqs := pos_spec hF (u + 1) (by omega)
    have hk := kasai_getD hF ((inverse_array sa).getD u 0) hps.1
      (by rw [hps.2]; omega)
    rw [hps.2] at hk
    have hm : m = lcpLen ((a ++ [0] ++ b).drop ((inverse_array sa).getD u 0))
        ((a ++ [0] ++ b).drop ((inverse_array sa).getD (u + 1) 0)) := by
      rw [← hval, hk]
    by_cases hP : (inverse_array sa).getD u 0 < a.length
    · have hQ : ¬ (inverse_array sa).getD (u + 1) 0 < a.length := fun hQ =>
        hucond' (by rw [decide_eq_true hP, decide_eq_true hQ])
      have hbound := lcs_cross_bound a b hA' hB'
        ((inverse_array sa).getD u 0) ((inverse_array sa).getD (u + 1) 0)
        hP (by omega)
      rw [← hm] at hbound
      exact le_min (by omega) hbound.2
    · have hQ : (inverse_array sa).getD (u + 1) 0 < a.length := by
        by_contra hQn
        exact hucond' (by rw [decide_eq_false hP, decide_eq_false hQn])
      have hbound := lcs_cross_bound a b hA' hB'
        ((inverse_array sa).getD (u + 1) 0) ((inverse_array sa).getD u 0)
        hQ (by omega)
      rw [lcpLen_comm, ← hm] at hbound
      exact le_min (by omega) hbound.2

/-- Witness for C9 (amended) at `a = "123"`, `b = "234"`:
`lcs = 2 ≤ min 3 3`. -/
theorem claim_C9_amended_witness :
    (0 : Nat) ∉ ([1, 2, 3] : List Nat) ∧ (0 : Nat) ∉ ([2, 3, 4] : List Nat) ∧
    longest_common_substring [1, 2, 3] [2, 3, 4] = some 2 ∧
    2 ≤ min ([1, 2, 3] : List Nat).length ([2, 3, 4] : List Nat).length :=
  ⟨by decide, by decide, by decide,
    claim_C9_amended [1, 2, 3] [2, 3, 4] (by decide) (by decide) 2 (by decide)⟩

/-! ## Characterising the value of `longest_common_substring` -/

lemma lcpLen_self : ∀ (u : List Nat), lcpLen u u = u.length
  | [] => rfl
  | a :: u => by
    rw [lcpLen, if_pos rfl, lcpLen_self u, List.length_cons]

lemma sepString_drop_left (a b : List Nat) (p : Nat) (hp : p ≤ a.length) :
    (a ++ [0] ++ b).drop p = a.drop p ++ [0] ++ b := by
  rw [List.drop_append_of_le_length (by rw [List.length_append]; simp; omega),
    List.drop_append_of_le_length hp]

lemma sepString_drop_right (a b : List Nat) (q : Nat) :
    (a ++ [0] ++ b).drop (a.length + 1 + q) = b.drop q := by
  have h1 : (a ++ [0] ++ b).drop ((a ++ [0]).length + q) = b.drop q :=
    List.drop_append q
  have h2 : (a ++ [0]).length + q = a.length + 1 + q := by
    rw [List.length_append]
    simp
  rw [h2] at h1
  exact h1

lemma sepString_drop_right' (a b : List Nat) (t : Nat) (ht : a.length < t) :
    (a ++ [0] ++ b).drop t = b.drop (t - a.length - 1) := by
  have h1 := sepString_drop_right a b (t - a.length - 1)
  have h2 : a.length + 1 + (t - a.length - 1) = t := by omega
  rw [h2] at h1
  exact h1

/-- A suffix starting inside `a` has no common prefix with the suffix
starting at the separator, since `a` is free of `0`. -/
lemma lcp_with_sep_zero (a b : List Nat) (hA : ∀ x ∈ a, x ≠ (0 : Nat))
    (p : Nat) (hp : p < a.length) :
    lcpLen ((a ++ [0] ++ b).drop p) ((a ++ [0] ++ b).drop a.length) = 0 := by
  have hn : (a ++ [0] ++ b).length = a.length + 1 + b.length := by
    simp [List.length_append]
    omega
  by_contra h0
  have h1 : 0 < lcpLen ((a ++ [0] ++ b).drop p) ((a ++ [0] ++ b).drop a.length) :=
    Nat.pos_of_ne_zero h0
  have hchar := lcpLen_getD _ _ 0 h1
  rw [drop_getD _ _ _ (by omega), drop_getD _ _ _ (by omega),
    Nat.add_zero, Nat.add_zero, sepString_getD_left a b p hp,
    sepString_getD_sep] at hchar
  exact hA _ (getD_mem hp) hchar

/-- A common substring of `a` and `b` lifts to a common prefix of the
corresponding suffixes of `a + chr(0) + b`. -/
lemma lcp_lift (a b : List Nat) (p q : Nat) (hp : p < a.length)
    (hq : q < b.length) :
    lcpLen (a.drop p) (b.drop q) ≤
      lcpLen ((a ++ [0] ++ b).drop p) ((a ++ [0] ++ b).drop (a.length + 1 + q)) := by
  have hn : (a ++ [0] ++ b).length = a.length + 1 + b.length := by
    simp [List.length_append]
    omega
  have hla := lcpLen_le_left (a.drop p) (b.drop q)
  have hlb := lcpLen_le_right (a.drop p) (b.drop q)
  rw [List.length_drop] at hla
  rw [List.length_drop] at hlb
  apply le_lcpLen_of_take_eq
  · rw [List.length_drop]
    omega
  · rw [List.length_drop]
    omega
  · have hL : ((a ++ [0] ++ b).drop p).take (lcpLen (a.drop p) (b.drop q)) =
        (a.drop p).take (lcpLen (a.drop p) (b.drop q)) := by
      rw [sepString_drop_left a b p (by omega),
        List.take_append_of_le_length (by
          rw [List.length_append, List.length_drop]
          simp
          omega),
        List.take_append_of_le_length (by rw [List.length_drop]; omega)]
    have hR : ((a ++ [0] ++ b).drop (a.length + 1 + q)).take
          (lcpLen (a.drop p) (b.drop q)) =
        (b.drop q).take (lcpLen (a.drop p) (b.drop q)) := by
      rw [sepString_drop_right a b q]
    rw [hL, hR]
    exact take_lcpLen_eq (a.drop p) (b.drop q) _ le_rfl

lemma suffix_le_of_rank_le {s sa : List Nat} (hF : FinalRanks s sa)
    {x y : Nat} (hx : x < s.length) (hy : y < s.length)
    (hr : sa.getD x 0 ≤ sa.getD y 0) :
    lexLt (s.drop x) (s.drop y) = true ∨ s.drop x = s.drop y := by
  rcases Nat.lt_or_ge (sa.getD x 0) (sa.getD y 0) with hlt | hge
  · exact Or.inl ((hF.2.2 x y hx hy).1.1 hlt)
  · have he : sa.getD x 0 = sa.getD y 0 := by omega
    have hxy := (hF.2.2 x y hx hy).2.1 he
    exact Or.inr (by rw [hxy])

/-- Interval squeeze: if ranks `u` and `u + 1` lie between the ranks of
suffixes `i` and `j`, the lcp of suffixes `i` and `j` is at most the lcp of
the rank-`u` and rank-`u+1` suffixes. -/
lemma lcp_between_ranks {s sa : List Nat} (hF : FinalRanks s sa)
    (i j u : Nat) (hi : i < s.length) (hj : j < s.length)
    (hui : sa.getD i 0 ≤ u) (huj : u + 1 ≤ sa.getD j 0) :
    lcpLen (s.drop i) (s.drop j) ≤
      lcpLen (s.drop ((inverse_array sa).getD u 0))
        (s.drop ((inverse_array sa).getD (u + 1) 0)) := by
  have hrjn := rank_lt hF hj
  have hun : u < s.length := by omega
  have hu1n : u + 1 < s.length := by omega
  have hpu := pos_spec hF u hun
  have hpu1 := pos_spec hF (u + 1) hu1n
  have hXY := suffix_le_of_rank_le hF hi hpu.1 (by rw [hpu.2]; omega)
  have hYZ := suffix_le_of_rank_le hF hpu.1 hj (by rw [hpu.2]; omega)
  have hYY2 := suffix_le_of_rank_le hF hpu.1 hpu1.1 (by rw [hpu.2, hpu1.2]; omega)
  have hY2Z := suffix_le_of_rank_le hF hpu1.1 hj (by rw [hpu1.2]; omega)
  calc lcpLen (s.drop i) (s.drop j)
      ≤ lcpLen (s.drop ((inverse_array sa).getD u 0)) (s.drop j) :=
        lcp_squeeze_left _ _ _ hXY hYZ
    _ ≤ lcpLen (s.drop ((inverse_array sa).getD u 0))
          (s.drop ((inverse_array sa).getD (u + 1) 0)) :=
        lcp_squeeze_right _ _ _ hYY2 hY2Z

/-- A Boolean sequence differing at `t0 < t1` flips at some adjacent pair
inside `[t0, t1]`. -/
lemma exists_flip_between (f : Nat → Bool) (t0 t1 : Nat) (h01 : t0 < t1)
    (hne : f t0 ≠ f t1) : ∃ u, t0 ≤ u ∧ u + 1 ≤ t1 ∧ f u ≠ f (u + 1) := by
  by_contra hc
  push_neg at hc
  have hconst : ∀ d, t0 + d ≤ t1 → f (t0 + d) = f t0 := by
    intro d
    induction d with
    | zero => intro _; rfl
    | succ d ih =>
      intro hd
      have he := hc (t0 + d) (by omega) (by omega)
      have hih := ih (by omega)
      rw [show t0 + (d + 1) = t0 + d + 1 by omega, ← he]
      exact hih
  have hfin := hconst (t1 - t0) (by omega)
  rw [show t0 + (t1 - t0) = t1 by omega] at hfin
  exact hne hfin.symm

/-- The lcp of a crossing pair of suffixes is realised (up to `≤`) as a
common substring of the two operands. -/
lemma lcs_achieved_aux (a b : List Nat) (hA' : ∀ x ∈ a, x ≠ (0 : Nat))
    (hB' : ∀ x ∈ b, x ≠ (0 : Nat)) (m P Q : Nat)
    (hQn : Q < (a ++ [0] ++ b).length)
    (hP : P < a.length) (hQ : a.length ≤ Q)
    (hm : m = lcpLen ((a ++ [0] ++ b).drop P) ((a ++ [0] ++ b).drop Q)) :
    ∃ p q, p ≤ a.length ∧ q ≤ b.length ∧ m ≤ lcpLen (a.drop p) (b.drop q) := by
  have hn : (a ++ [0] ++ b).length = a.length + 1 + b.length := by
    simp [List.length_append]
    omega
  have hbound := lcs_cross_bound a b hA' hB' P Q hP hQ
  by_cases hQa : Q = a.length
  · refine ⟨0, 0, Nat.zero_le _, Nat.zero_le _, ?_⟩
    rw [hm, hQa, lcp_with_sep_zero a b hA' P hP]
    exact Nat.zero_le _
  · have hQ1 : a.length < Q := by omega
    refine ⟨P, Q - a.length - 1, by omega, by omega, ?_⟩
    apply le_lcpLen_of_take_eq
    · rw [List.length_drop]
      omega
    · rw [List.length_drop]
      have hler := lcpLen_le_right ((a ++ [0] ++ b).drop P) ((a ++ [0] ++ b).drop Q)
      rw [List.length_drop] at hler
      omega
    · have htk := take_lcpLen_eq ((a ++ [0] ++ b).drop P) ((a ++ [0] ++ b).drop Q)
        m (le_of_eq hm)
      have hL : ((a ++ [0] ++ b).drop P).take m = (a.drop P).take m := by
        rw [sepString_drop_left a b P (by omega),
          List.take_append_of_le_length (by
            rw [List.length_append, List.length_drop]
            simp
            omega),
          List.take_append_of_le_length (by rw [List.length_drop]; omega)]
      have hR : ((a ++ [0] ++ b).drop Q).take m =
          (b.drop (Q - a.length - 1)).take m := by
        rw [sepString_drop_right' a b Q hQ1]
      rw [← hL, ← hR]
      exact htk

/-- For `chr(0)`-free operands, the returned value is both achieved by a
common substring and an upper bound on every common substring. -/
lemma lcs_value_bounds (a b : List Nat) (hA : (0 : Nat) ∉ a)
    (hB : (0 : Nat) ∉ b) (m : Nat)
    (h : longest_common_substring a b = some m) :
    (∃ p q, p ≤ a.length ∧ q ≤ b.length ∧ m ≤ lcpLen (a.drop p) (b.drop q)) ∧
    (∀ p q, lcpLen (a.drop p) (b.drop q) ≤ m) := by
  have hA' : ∀ x ∈ a, x ≠ (0 : Nat) := fun x hx he => hA (he ▸ hx)
  have hB' : ∀ x ∈ b, x ≠ (0 : Nat) := fun x hx he => hB (he ▸ hx)
  cases hsa : suffix_array (a ++ [0] ++ b) with
  | none =>
    have hred : longest_common_substring a b = none := by
      simp only [longest_common_substring, hsa]
    rw [hred] at h
    cases h
  | some sa =>
    have hF := suffix_array_final hsa
    have hred : longest_common_substring a b =
        (((List.range ((a ++ [0] ++ b).length - 1)).filter fun i =>
            (decide ((inverse_array sa).getD i 0 < a.length)) !=
              (decide ((inverse_array sa).getD (i + 1) 0 < a.length))).map
          fun i => (kasai (a ++ [0] ++ b) sa).getD i 0).max? := by
      simp only [longest_common_substring, hsa]
    rw [hred] at h
    have hn : (a ++ [0] ++ b).length = a.length + 1 + b.length := by
      simp [List.length_append]
      omega
    constructor
    · -- achievability
      have hmem := (List.max?_eq_some_iff'.1 h).1
      obtain ⟨u, humem, hval⟩ := List.mem_map.1 hmem
      obtain ⟨hur, hucond⟩ := List.mem_filter.1 humem
      have hu : u < (a ++ [0] ++ b).length - 1 := List.mem_range.1 hur
      have hucond' : decide ((inverse_array sa).getD u 0 < a.length) ≠
          decide ((inverse_array sa).getD (u + 1) 0 < a.length) :=
        bne_iff_ne.1 hucond
      have hps := pos_spec hF u (by omega)
      have hqs := pos_spec hF (u + 1) (by omega)
      have hk := kasai_getD hF ((inverse_array sa).getD u 0) hps.1
        (by rw [hps.2]; omega)
      rw [hps.2] at hk
      have hm : m = lcpLen ((a ++ [0] ++ b).drop ((inverse_array sa).getD u 0))
          ((a ++ [0] ++ b).drop ((inverse_array sa).getD (u + 1) 0)) := by
        rw [← hval, hk]
      by_cases hP : (inverse_array sa).getD u 0 < a.length
      · have hQ : ¬ (inverse_array sa).getD (u + 1) 0 < a.length := fun hQ =>
          hucond' (by rw [decide_eq_true hP, decide_eq_true hQ])
        exact lcs_achieved_aux a b hA' hB' m _ _ hqs.1 hP (by omega) hm
      · have hQ : (inverse_array sa).getD (u + 1) 0 < a.length := by
          by_contra hQn
          exact hucond' (by rw [decide_eq_false hP, decide_eq_false hQn])
        exact lcs_achieved_aux a b hA' hB' m _ _ hps.1 hQ (by omega)
          (by rw [hm, lcpLen_comm])
    · -- maximality
      intro p q
      by_cases hp : p < a.length
      · by_cases hq : q < b.length
        · have ht := lcp_lift a b p q hp hq
          have hj : a.length + 1 + q < (a ++ [0] ++ b).length := by omega
          have hpn : p < (a ++ [0] ++ b).length := by omega
          have hpri := pos_rank hF p hpn
          have hprj := pos_rank hF (a.length + 1 + q) hj
          have hrin := rank_lt hF hpn
          have hrjn := rank_lt hF hj
          have hrne : sa.getD p 0 ≠ sa.getD (a.length + 1 + q) 0 := by
            intro he
            have := (hF.2.2 p (a.length + 1 + q) hpn hj).2.1 he
            omega
          rcases Nat.lt_or_ge (sa.getD p 0) (sa.getD (a.length + 1 + q) 0) with
            hord1 | hord2
          · obtain ⟨u, hu1, hu2, hune⟩ := exists_flip_between
              (fun x => decide ((inverse_array sa).getD x 0 < a.length))
              (sa.getD p 0) (sa.getD (a.length + 1 + q) 0) hord1
              (by
                show decide ((inverse_array sa).getD (sa.getD p 0) 0 < a.length) ≠
                  decide ((inverse_array sa).getD
                    (sa.getD (a.length + 1 + q) 0) 0 < a.length)
                rw [hpri, hprj, decide_eq_true hp, decide_eq_false (by omega)]
                simp)
            have humem : u ∈ (List.range ((a ++ [0] ++ b).length - 1)).filter
                fun i => (decide ((inverse_array sa).getD i 0 < a.length)) !=
                  (decide ((inverse_array sa).getD (i + 1) 0 < a.length)) :=
              List.mem_filter.2 ⟨List.mem_range.2 (by omega), bne_iff_ne.2 hune⟩
            have hle_m := (List.max?_eq_some_iff'.1 h).2 _
              (List.mem_map_of_mem
                (fun i => (kasai (a ++ [0] ++ b) sa).getD i 0) humem)
            have hpu := pos_spec hF u (by omega)
            have hk := kasai_getD hF ((inverse_array sa).getD u 0) hpu.1
              (by rw [hpu.2]; omega)
            rw [hpu.2] at hk
            have hsq := lcp_between_ranks hF p (a.length + 1 + q) u hpn hj
              (by omega) (by omega)
            simp only at hle_m
            omega
          · obtain ⟨u, hu1, hu2, hune⟩ := exists_flip_between
              (fun x => decide ((inverse_array sa).getD x 0 < a.length))
              (sa.getD (a.length + 1 + q) 0) (sa.getD p 0) (by omega)
              (by
                show decide ((inverse_array sa).getD
                    (sa.getD (a.length + 1 + q) 0) 0 < a.length) ≠
                  decide ((inverse_array sa).getD (sa.getD p 0) 0 < a.length)
                rw [hpri, hprj, decide_eq_true hp, decide_eq_false (by omega)]
                simp)
            have humem : u ∈ (List.range ((a ++ [0] ++ b).length - 1)).filter
                fun i => (decide ((inverse_array sa).getD i 0 < a.length)) !=
                  (decide ((inverse_array sa).getD (i + 1) 0 < a.length)) :=
              List.mem_filter.2 ⟨List.mem_range.2 (by omega), bne_iff_ne.2 hune⟩
            have hle_m := (List.max?_eq_some_iff'.1 h).2 _
              (List.mem_map_of_mem
                (fun i => (kasai (a ++ [0] ++ b) sa).getD i 0) humem)
            have hpu := pos_spec hF u (by omega)
            have hk := kasai_getD hF ((inverse_array sa).getD u 0) hpu.1
              (by rw [hpu.2]; omega)
            rw [hpu.2] at hk
            have hsq := lcp_between_ranks hF (a.length + 1 + q) p u hj hpn
              (by omega) (by omega)
            rw [lcpLen_comm] at hsq
            simp only at hle_m
            omega
        · have hle := lcpLen_le_right (a.drop p) (b.drop q)
          rw [List.length_drop] at hle
          omega
      · have hle := lcpLen_le_left (a.drop p) (b.drop q)
        rw [List.length_drop] at hle
        omega

/-- C8 (amended): for non-empty operands free of the separator `chr(0)`,
`longest_common_substring` is symmetric, and on equal operands it returns
the full length.  (With `chr(0)` in an operand both equations fail, see the
counterexample.) -/
theorem claim_C8_amended (a b : List Nat) (hA : (0 : Nat) ∉ a)
    (hB : (0 : Nat) ∉ b) (ha : a ≠ []) (hb : b ≠ []) :
    longest_common_substring a b = longest_common_substring b a ∧
    longest_common_substring a a = some a.length := by
  constructor
  · obtain ⟨m, hm⟩ := Option.isSome_iff_exists.1 (lcs_isSome a b ha)
    obtain ⟨m2, hm2⟩ := Option.isSome_iff_exists.1 (lcs_isSome b a hb)
    have B1 := lcs_value_bounds a b hA hB m hm
    have B2 := lcs_value_bounds b a hB hA m2 hm2
    have h12 : m ≤ m2 := by
      obtain ⟨p, q, hp, hq, hach⟩ := B1.1
      have hmax := B2.2 q p
      rw [lcpLen_comm] at hach
      omega
    have h21 : m2 ≤ m := by
      obtain ⟨p, q, hp, hq, hach⟩ := B2.1
      have hmax := B1.2 q p
      rw [lcpLen_comm] at hach
      omega
    rw [hm, hm2]
    congr 1
    omega
  · obtain ⟨k, hk⟩ := Option.isSome_iff_exists.1 (lcs_isSome a a ha)
    have B3 := lcs_value_bounds a a hA hA k hk
    have hlow := B3.2 0 0
    simp only [List.drop_zero] at hlow
    rw [lcpLen_self] at hlow
    have hhigh : k ≤ a.length := by
      obtain ⟨p, q, hp, hq, hach⟩ := B3.1
      have h1 := lcpLen_le_left (a.drop p) (a.drop q)
      rw [List.length_drop] at h1
      omega
    rw [hk]
    congr 1
    omega

/-- Witness for C8 (amended) at `a = "12"`, `b = "3"`. -/
theorem claim_C8_amended_witness :
    (0 : Nat) ∉ ([1, 2] : List Nat) ∧ (0 : Nat) ∉ ([3] : List Nat) ∧
    ([1, 2] : List Nat) ≠ [] ∧ ([3] : List Nat) ≠ [] ∧
    (longest_common_substring [1, 2] [3] = longest_common_substring [3] [1, 2] ∧
      longest_common_substring [1, 2] [1, 2] = some ([1, 2] : List Nat).length) :=
  ⟨by decide, by decide, by decide, by decide,
    claim_C8_amended [1, 2] [3] (by decide) (by decide) (by decide) (by decide)⟩

/-- Claim C2 (amended): `longest_common_substring` raises (the `ValueError`
of `max` on an empty sequence) when `a` is empty, for every `b`; when only
`b` is empty it does not raise but silently returns a value, e.g. 0 on
`a = [1]`, `b = []`.  (The no-raise part is proved for every non-empty `a`,
of which an empty `b` is the relevant special case.) -/
theorem claim_C2_amended :
    (∀ b : List Nat, longest_common_substring [] b = none) ∧
      (∀ a : List Nat, a ≠ [] → (longest_common_substring a []).isSome) ∧
      longest_common_substring [1] [] = some 0 :=
  ⟨longest_common_substring_nil_left, fun a ha => lcs_isSome a [] ha, by decide⟩

/-- Witness for C2 (amended): on `a = [1]`, `b = []` the hypothesis holds
and the call returns a value. -/
theorem claim_C2_amended_witness :
    ([1] : List Nat) ≠ [] ∧ (longest_common_substring [1] []).isSome :=
  ⟨by decide, claim_C2_amended.2.1 [1] (by decide)⟩
